import Mathlib

/-!
Verification of the Needpedia assistant chat orchestration core
(`src/app/api/chat/route.ts`).

The TypeScript source is shallowly embedded below.  Strings are modelled as
`List Char`; each JavaScript global-regex `replace` is embedded as a
left-to-right, non-overlapping scanner (`scanWith`) whose matcher function
transcribes the concrete regular expression.  Recursions that consume a
variable number of characters per step take an explicit fuel argument
(initialised with the length of the input, which every scanner consumes at
least one character per step, so the fuel never runs out on the wrapped
calls); this keeps every definition executable by the kernel.

Network effects (the OpenRouter chat-completions service and the Needpedia
content backend) are modelled as explicit oracle functions passed in as
parameters; a tool executor returns the list of write requests it issued so
that "performs a write" is an observable fact.  JSON parsing and
serialisation performed by the JavaScript runtime are modelled as abstract
parameters (`parse`, `canon`, `stringify`) of the orchestration loop.
-/

/-! ## Generic character-list utilities -/

/-- JavaScript `\s` character class, restricted to the ASCII whitespace that
the repository actually produces (space, tab, CR, LF). -/
def jsWs (c : Char) : Bool := c.isWhitespace

/-- `String.prototype.trimEnd` / `trimRight` on a character list. -/
def trimEndC (l : List Char) : List Char :=
  (l.reverse.dropWhile jsWs).reverse

/-- `String.prototype.trim` on a character list. -/
def trimC (l : List Char) : List Char :=
  trimEndC (l.dropWhile jsWs)

/-- Does `pat` occur as a contiguous sublist of `l`?  (Used to state the
"contains no URL" style hypotheses.) -/
def occursC (pat : List Char) : List Char → Bool
  | [] => pat.isPrefixOf ([] : List Char)
  | c :: cs => pat.isPrefixOf (c :: cs) || occursC pat cs

/-- One-pass, left-to-right, non-overlapping scanner: the shape of a
JavaScript global `replace`.  `trigger` is the only character a match can
start with; on a match the `matcher` returns the emitted replacement and the
rest of the input after the consumed match.  Fuel `0` returns the remaining
input unchanged (the wrappers pass the input length, and every matcher
consumes at least one character, so this case is never reached by them). -/
def scanWith (trigger : Char) (matcher : List Char → Option (List Char × List Char)) :
    Nat → List Char → List Char
  | 0, l => l
  | _ + 1, [] => []
  | fuel + 1, c :: cs =>
    if c = trigger then
      match matcher (c :: cs) with
      | some (out, rest) => out ++ scanWith trigger matcher fuel rest
      | none => c :: scanWith trigger matcher fuel cs
    else c :: scanWith trigger matcher fuel cs

theorem scanWith_nil (trigger : Char) (matcher : List Char → Option (List Char × List Char))
    (fuel : Nat) : scanWith trigger matcher fuel [] = [] := by
  cases fuel <;> rfl

theorem scanWith_step_pass (trigger : Char) (matcher : List Char → Option (List Char × List Char))
    (fuel : Nat) (c : Char) (cs : List Char) (h : c ≠ trigger) :
    scanWith trigger matcher (fuel + 1) (c :: cs) = c :: scanWith trigger matcher fuel cs := by
  simp [scanWith, h]

theorem scanWith_step_none (trigger : Char) (matcher : List Char → Option (List Char × List Char))
    (fuel : Nat) (cs : List Char) (h : matcher (trigger :: cs) = none) :
    scanWith trigger matcher (fuel + 1) (trigger :: cs) = trigger :: scanWith trigger matcher fuel cs := by
  simp [scanWith, h]

theorem scanWith_step_match (trigger : Char) (matcher : List Char → Option (List Char × List Char))
    (fuel : Nat) (cs out rest : List Char)
    (h : matcher (trigger :: cs) = some (out, rest)) :
    scanWith trigger matcher (fuel + 1) (trigger :: cs) = out ++ scanWith trigger matcher fuel rest := by
  simp [scanWith, h]

/-- Characters different from the trigger pass through unchanged. -/
theorem scanWith_append_pass (trigger : Char) (matcher : List Char → Option (List Char × List Char))
    (a b : List Char) (ha : ∀ c ∈ a, c ≠ trigger) :
    ∀ fuel, a.length ≤ fuel →
      scanWith trigger matcher fuel (a ++ b) = a ++ scanWith trigger matcher (fuel - a.length) b := by
  induction a with
  | nil => intro fuel _; simp
  | cons c a ih =>
    intro fuel hfuel
    match fuel, hfuel with
    | fuel + 1, hfuel =>
      have hc : c ≠ trigger := ha c (List.mem_cons_self _ _)
      rw [List.cons_append, scanWith_step_pass _ _ _ _ _ hc,
        ih (fun x hx => ha x (List.mem_cons_of_mem _ hx)) fuel (by simpa using hfuel)]
      simp [Nat.succ_sub_succ]

/-- If no suffix of the input matches, the scan is the identity. -/
theorem scanWith_id (trigger : Char) (matcher : List Char → Option (List Char × List Char))
    (l : List Char) (h : ∀ s : List Char, s <:+ l → matcher s = none) :
    ∀ fuel, scanWith trigger matcher fuel l = l := by
  induction l with
  | nil => intro fuel; exact scanWith_nil _ _ _
  | cons c cs ih =>
    intro fuel
    match fuel with
    | 0 => rfl
    | fuel + 1 =>
      have htail : ∀ s : List Char, s <:+ cs → matcher s = none := fun s hs =>
        h s (hs.trans (List.suffix_cons c cs))
      by_cases hc : c = trigger
      · subst hc
        rw [scanWith_step_none _ _ _ _ (h (c :: cs) List.suffix_rfl), ih htail fuel]
      · rw [scanWith_step_pass _ _ _ _ _ hc, ih htail fuel]

/-! ## `replace` with a plain string pattern -/

/-- Matcher for a fixed (non-empty) pattern: the JS
`String.replace(/pat/g, repl)` where `pat` has no metacharacters. -/
def litMatch (pat repl : List Char) (l : List Char) : Option (List Char × List Char) :=
  if pat.isPrefixOf l then some (repl, l.drop pat.length) else none

/-- Global replacement of the literal pattern `pat` by `repl`. -/
def replaceAllC (pat repl l : List Char) : List Char :=
  match pat with
  | [] => l
  | p :: _ => scanWith p (litMatch pat repl) l.length l

/-- A single-character pattern that does not occur leaves the input unchanged. -/
theorem replaceAllC_single_id (p : Char) (repl l : List Char) (h : p ∉ l) :
    replaceAllC [p] repl l = l := by
  unfold replaceAllC
  refine scanWith_id _ _ _ (fun s hs => ?_) _
  unfold litMatch
  cases s with
  | nil => simp [List.isPrefixOf]
  | cons c cs =>
    have hc : c ∈ l := hs.subset (List.mem_cons_self _ _)
    have : ¬ ([p].isPrefixOf (c :: cs) = true) := by
      simp [List.isPrefixOf]
      rintro rfl
      exact h hc
    simp [this]

/-- A two-character pattern whose second character does not occur leaves the
input unchanged (covers the `\r\n` normalisation on single-line input). -/
theorem replaceAllC_pair_id (p q : Char) (repl l : List Char) (h : q ∉ l) :
    replaceAllC [p, q] repl l = l := by
  unfold replaceAllC
  refine scanWith_id _ _ _ (fun s hs => ?_) _
  unfold litMatch
  cases s with
  | nil => simp [List.isPrefixOf]
  | cons c cs =>
    cases cs with
    | nil => simp [List.isPrefixOf]
    | cons d ds =>
      have hd : d ∈ l := hs.subset (by simp)
      have : ¬ ([p, q].isPrefixOf (c :: d :: ds) = true) := by
        simp [List.isPrefixOf]
        rintro - rfl
        exact h hd
      simp [this]

/-! ## `toRichHtml` (route.ts lines 194-234)

`const toRichHtml = (input) => ...` converts markdown-ish plain text to a
minimal HTML subset: `\r\n` normalisation, line split, `#`/`##`/`###`
headings, `-`/`*` unordered lists, bold/italic/auto-linking inline
formatting, HTML escaping, paragraphs. -/

/-- `esc`: `.replace(/&/g,"&amp;").replace(/</g,"&lt;").replace(/>/g,"&gt;")`. -/
def escC (s : List Char) : List Char :=
  replaceAllC ['>'] "&gt;".data
    (replaceAllC ['<'] "&lt;".data
      (replaceAllC ['&'] "&amp;".data s))

/-- Matcher for `/\*\*([^*]+)\*\*/g` (bold). -/
def boldMatch (l : List Char) : Option (List Char × List Char) :=
  match l with
  | '*' :: '*' :: rest =>
    let body := rest.takeWhile (fun c => c ≠ '*')
    if body = [] then none
    else
      match rest.dropWhile (fun c => c ≠ '*') with
      | '*' :: '*' :: tail =>
        some ("<strong>".data ++ body ++ "</strong>".data, tail)
      | _ => none
  | _ => none

/-- Matcher for `/\*([^*]+)\*/g` (italic). -/
def italicMatch (l : List Char) : Option (List Char × List Char) :=
  match l with
  | '*' :: rest =>
    let body := rest.takeWhile (fun c => c ≠ '*')
    if body = [] then none
    else
      match rest.dropWhile (fun c => c ≠ '*') with
      | '*' :: tail => some ("<em>".data ++ body ++ "</em>".data, tail)
      | _ => none
  | _ => none

/-- `https?:\/\/` — returns the scheme length (the `s?` branch is greedy). -/
def schemeLen (l : List Char) : Option Nat :=
  if "https://".data.isPrefixOf l then some 8
  else if "http://".data.isPrefixOf l then some 7
  else none

/-- `(?![^<]*>)` — the negative-lookahead body `[^<]*>` succeeds iff a `>`
appears before any `<` in the remaining input. -/
def closesBeforeOpen : List Char → Bool
  | [] => false
  | c :: cs => if c = '>' then true else if c = '<' then false else closesBeforeOpen cs

/-- The anchor markup emitted for a linked URL:
`<a href="$1" target="_blank" rel="noopener noreferrer">$1</a>`. -/
def anchorFor (url : List Char) : List Char :=
  "<a href=\"".data ++ url ++ "\" target=\"_blank\" rel=\"noopener noreferrer\">".data
    ++ url ++ "</a>".data

/-- Greedy match with backtracking for `[^\s)]+` followed by the negative
lookahead: try the run length `j`, then `j - 1`, ... down to `1`. -/
def urlTryLens (pre rest : List Char) : Nat → Option (List Char × List Char)
  | 0 => none
  | j + 1 =>
    let url := pre ++ rest.take (j + 1)
    let tail := rest.drop (j + 1)
    if closesBeforeOpen tail then urlTryLens pre rest j
    else some (anchorFor url, tail)

/-- Matcher for `/(https?:\/\/[^\s)]+)(?![^<]*>)/g` (auto-linking). -/
def urlMatch (l : List Char) : Option (List Char × List Char) :=
  match schemeLen l with
  | none => none
  | some k =>
    let pre := l.take k
    let rest := l.drop k
    let run := rest.takeWhile (fun c => ¬ (jsWs c || c = ')'))
    urlTryLens pre rest run.length

/-- `fmtInline`: bold, then italic, then auto-linked URLs. -/
def fmtInlineC (s : List Char) : List Char :=
  let b := scanWith '*' boldMatch s.length s
  let i := scanWith '*' italicMatch b.length b
  scanWith 'h' urlMatch i.length i

/-- `\s+(.+)` after a marker, on an already right-trimmed line: at least one
whitespace character, then the (non-empty) rest with the whitespace run
stripped.  (Because the line carries no trailing whitespace, the greedy
whitespace run of the regex never needs to backtrack.) -/
def wsBody (rest : List Char) : Option (List Char) :=
  let body := rest.dropWhile jsWs
  if rest.takeWhile jsWs = [] then none
  else if body = [] then none
  else some body

/-- `/^###\s+(.+)/` and friends: `marker` is `###`, `##` or `#`. -/
def headingBody (marker : List Char) (line : List Char) : Option (List Char) :=
  if marker.isPrefixOf line then wsBody (line.drop marker.length) else none

/-- `/^[-*]\s+(.+)/`: unordered-list item. -/
def listItemBody (line : List Char) : Option (List Char) :=
  match line with
  | c :: rest => if c = '-' || c = '*' then wsBody rest else none
  | [] => none

/-- `flushList`: closes the pending `<ul>` buffer into the html parts. -/
def flushListC (parts listBuffer : List (List Char)) : List (List Char) :=
  if listBuffer = [] then parts
  else parts ++ ["<ul>".data] ++ listBuffer.map (fun li => "<li>".data ++ li ++ "</li>".data)
    ++ ["</ul>".data]

/-- The body of `lines.forEach(raw => ...)`: one step of the accumulator
`(htmlParts, listBuffer)`. -/
def richLineStep (acc : List (List Char) × List (List Char)) (raw : List Char) :
    List (List Char) × List (List Char) :=
  let parts := acc.1
  let listBuffer := acc.2
  let line := trimEndC raw
  if trimC line = [] then (flushListC parts listBuffer, [])
  else
    match headingBody "###".data line with
    | some b => (flushListC parts listBuffer ++ ["<h3>".data ++ fmtInlineC (escC b) ++ "</h3>".data], [])
    | none =>
    match headingBody "##".data line with
    | some b => (flushListC parts listBuffer ++ ["<h2>".data ++ fmtInlineC (escC b) ++ "</h2>".data], [])
    | none =>
    match headingBody "#".data line with
    | some b => (flushListC parts listBuffer ++ ["<h1>".data ++ fmtInlineC (escC b) ++ "</h1>".data], [])
    | none =>
    match listItemBody line with
    | some b => (parts, listBuffer ++ [fmtInlineC (escC b)])
    | none => (flushListC parts listBuffer ++ ["<p>".data ++ fmtInlineC (escC line) ++ "</p>".data], [])

/-- `text.split(/\n/)`. -/
def splitNlC : List Char → List (List Char)
  | [] => [[]]
  | c :: cs =>
    match splitNlC cs with
    | [] => [[]]
    | h :: t => if c = '\n' then [] :: h :: t else (c :: h) :: t

/-- `toRichHtml` on character lists. -/
def toRichHtmlC (input : List Char) : List Char :=
  let text := replaceAllC "\r\n".data "\n".data input
  let lines := splitNlC text
  let st := lines.foldl richLineStep ([], [])
  List.intercalate "\n".data (flushListC st.1 st.2)

/-- `toRichHtml` (route.ts line 194). -/
def toRichHtml (input : String) : String :=
  ⟨toRichHtmlC input.data⟩

/-! ## `htmlToPlainText` (route.ts lines 236-253) -/

/-- Lower-case comparison of a (lower-case) pattern against input characters:
models the `i` flag on tag-name alternations.  Returns the rest on success. -/
def ciPrefixDrop : List Char → List Char → Option (List Char)
  | [], l => some l
  | _ :: _, [] => none
  | p :: ps, c :: cs => if c.toLower = p then ciPrefixDrop ps cs else none

/-- The tag-name alternation `p|div|h[1-6]|li|ul|ol|blockquote|section|article`
(no name in the list is a prefix of another, so ordered alternation equals
first-match). -/
def tagAlternatives : List (List Char) :=
  ["p".data, "div".data, "h1".data, "h2".data, "h3".data, "h4".data, "h5".data,
   "h6".data, "li".data, "ul".data, "ol".data, "blockquote".data, "section".data,
   "article".data]

def anyTagDrop : List (List Char) → List Char → Option (List Char)
  | [], _ => none
  | t :: ts, l =>
    match ciPrefixDrop t l with
    | some r => some r
    | none => anyTagDrop ts l

/-- Matcher for `/<\s*br\s*\/?\s*>/gi`. -/
def brMatch (l : List Char) : Option (List Char × List Char) :=
  match l with
  | '<' :: r1 =>
    match ciPrefixDrop "br".data (r1.dropWhile jsWs) with
    | some r2 =>
      let r3 := r2.dropWhile jsWs
      let r4 := match r3 with
        | '/' :: t => t.dropWhile jsWs
        | _ => r3
      match r4 with
      | '>' :: tail => some ("\n".data, tail)
      | _ => none
    | none => none
  | _ => none

/-- Matcher for `/<\s*\/\s*(p|div|h[1-6]|li|ul|ol|blockquote|section|article)\s*>/gi`. -/
def closeTagMatch (l : List Char) : Option (List Char × List Char) :=
  match l with
  | '<' :: r1 =>
    match r1.dropWhile jsWs with
    | '/' :: r2 =>
      match anyTagDrop tagAlternatives (r2.dropWhile jsWs) with
      | some r3 =>
        match r3.dropWhile jsWs with
        | '>' :: tail => some ("\n".data, tail)
        | _ => none
      | none => none
    | _ => none
  | _ => none

/-- Matcher for `/<\s*(p|div|h[1-6]|li|ul|ol|blockquote|section|article)[^>]*>/gi`
(the greedy `[^>]*` followed by `>` consumes up to the first later `>`). -/
def openTagMatch (l : List Char) : Option (List Char × List Char) :=
  match l with
  | '<' :: r1 =>
    match anyTagDrop tagAlternatives (r1.dropWhile jsWs) with
    | some r2 =>
      match r2.dropWhile (fun c => c ≠ '>') with
      | '>' :: tail => some ("\n".data, tail)
      | _ => none
    | none => none
  | _ => none

/-- Matcher for `/<[^>]+>/g` (strip any remaining tag). -/
def angleMatch (l : List Char) : Option (List Char × List Char) :=
  match l with
  | '<' :: rest =>
    if rest.takeWhile (fun c => c ≠ '>') = [] then none
    else
      match rest.dropWhile (fun c => c ≠ '>') with
      | '>' :: tail => some ([], tail)
      | _ => none
  | _ => none

/-- The six entity replacements of lines 243-249. -/
def decodeEntitiesC (l : List Char) : List Char :=
  replaceAllC "&#39;".data "\x27".data
    (replaceAllC "&quot;".data "\"".data
      (replaceAllC "&gt;".data ">".data
        (replaceAllC "&lt;".data "<".data
          (replaceAllC "&amp;".data "&".data
            (replaceAllC "&nbsp;".data " ".data l)))))

/-- Matcher for `/\n{3,}/g` → `\n\n`. -/
def nlRunMatch (l : List Char) : Option (List Char × List Char) :=
  match l with
  | '\n' :: _ =>
    let run := l.takeWhile (fun c => c = '\n')
    if 3 ≤ run.length then some ("\n\n".data, l.dropWhile (fun c => c = '\n'))
    else none
  | _ => none

/-- `text.split('\n').map(line => line.trimEnd()).join('\n')`. -/
def trimLinesC (l : List Char) : List Char :=
  List.intercalate "\n".data ((splitNlC l).map trimEndC)

/-- `htmlToPlainText` on character lists (stages in source order). -/
def htmlToPlainTextC (html : List Char) : List Char :=
  if html = [] then []
  else
    let t1 := scanWith '<' brMatch html.length html
    let t2 := scanWith '<' closeTagMatch t1.length t1
    let t3 := scanWith '<' openTagMatch t2.length t2
    let t4 := scanWith '<' angleMatch t3.length t3
    let t5 := decodeEntitiesC t4
    let t6 := trimLinesC t5
    let t7 := scanWith '\n' nlRunMatch t6.length t6
    trimC t7

/-- `htmlToPlainText` (route.ts line 236). -/
def htmlToPlainText (html : String) : String :=
  ⟨htmlToPlainTextC html.data⟩

/-! ## Data model (route.ts lines 35-162) -/

/-- `FindContentArgs` (line 35). -/
structure FindContentArgs where
  query : String
  type : Option String
deriving DecidableEq

/-- `CreateContentArgs` (line 40).  `confirm?: boolean` is an optional field;
JavaScript reads it with `!args.confirm`, so `none` and `some false` behave
alike. -/
structure CreateContentArgs where
  title : String
  description : String
  content_type : String
  parent_id : Option String
  confirm : Option Bool
deriving DecidableEq

/-- The `changes` object of `EditContentArgs` (line 50). -/
structure EditChanges where
  title : Option String
  description : Option String
deriving DecidableEq

/-- `EditContentArgs` (line 48). -/
structure EditContentArgs where
  content_id : String
  changes : EditChanges
  confirm : Option Bool
deriving DecidableEq

/-- One normalized search item (line 59 / 308-313). -/
structure FindItem where
  title : String
  type : String
  id : Option String
  link : Option String
deriving DecidableEq

/-- `FindContentResult` (line 59). -/
structure FindContentResult where
  items : List FindItem
deriving DecidableEq

/-- The post summary returned by the backend after a write (lines 74-85).
The field `private` of the source is spelled `privatePost` because `private`
is reserved in Lean; the orchestrator never reads any of these fields. -/
structure PostSummary where
  link : String
  title : String
  content : String
  post_type : String
  curated : Bool
  group_id : Option String
  disabled : Bool
  privatePost : Bool
  problem : Option String
  subject : Option String
deriving DecidableEq

/-- The preview echoed by an unconfirmed `create_content` call (lines 326-333). -/
structure CreatePreview where
  title : String
  content_type : String
  description : String
  html : String
  plain_text : String
  parent_id : Option String
deriving DecidableEq

/-- `CreateContentResult` (line 63): either the preview envelope
(`requires_confirmation: true`) or the performed write. -/
inductive CreateContentResult where
  | requiresConfirmation (preview : CreatePreview) (instructions : String)
  | written (post : Option PostSummary)
deriving DecidableEq

/-- The preview echoed by an unconfirmed `edit_content` call (lines 388-394). -/
structure EditPreview where
  content_id : String
  title : Option String
  description : Option String
  html : Option String
  plain_text : Option String
deriving DecidableEq

/-- `EditContentResult` (line 88). -/
inductive EditContentResult where
  | requiresConfirmation (preview : EditPreview) (instructions : String)
  | written (post : Option PostSummary)
deriving DecidableEq

/-- `FunctionResult` (line 112). -/
inductive FunctionResult where
  | find (r : FindContentResult)
  | create (r : CreateContentResult)
  | edit (r : EditContentResult)
deriving DecidableEq

/-- JavaScript truthiness of an optional string (`undefined` and `""` are
falsy). -/
def optTruthy : Option String → Bool
  | some s => s ≠ ""
  | none => false

/-! ## `create_content` executor (route.ts lines 319-378)

The HTTP POST to `/api/v1/posts` is modelled by the `backend` oracle; the
executor returns the list of write requests it issued alongside its result,
so "contacted the write endpoint" is observable.  A thrown exception is the
`Except.error` case.  (`args.title || ''` and `args.content_type || ''` are
the identity on strings and are therefore not reproduced.) -/

/-- `post` body of `CreatePostPayload` (line 124). -/
structure CreatePostPayload where
  title : String
  post_type : String
  body : String
  subject_id : Option String
  problem_id : Option String
deriving DecidableEq

def createInstructions : String :=
  "Please confirm this post before creation by calling create_content again with \"confirm\": true."

def create_content (backend : CreatePostPayload → Except String (Option PostSummary))
    (args : CreateContentArgs) :
    List CreatePostPayload × Except String CreateContentResult :=
  let htmlBody := toRichHtml args.description
  let plainText := htmlToPlainText htmlBody
  let previewPayload : CreatePreview :=
    { title := args.title, content_type := args.content_type,
      description := args.description, html := htmlBody, plain_text := plainText,
      parent_id := args.parent_id }
  if args.confirm.getD false = false then
    ([], .ok (.requiresConfirmation previewPayload createInstructions))
  else
    let base : CreatePostPayload :=
      { title := args.title, post_type := args.content_type, body := htmlBody,
        subject_id := none, problem_id := none }
    let postData :=
      if args.content_type = "problem" && optTruthy args.parent_id then
        { base with subject_id := args.parent_id }
      else if args.content_type = "idea" && optTruthy args.parent_id then
        { base with problem_id := args.parent_id }
      else base
    ([postData], (backend postData).map (fun p => .written p))

/-! ## `edit_content` executor (route.ts lines 379-434) -/

/-- `post` body of `UpdatePostPayload` (line 136): `title` when the new title
is truthy; `content_body` is the html body stored under both `content` and
`content_attributes` when a truthy description produced truthy html. -/
structure UpdatePostPayload where
  title : Option String
  content_body : Option String
deriving DecidableEq

def editInstructions : String :=
  "Please confirm this edit by calling edit_content again with \"confirm\": true."

def edit_content (backend : String → UpdatePostPayload → Except String (Option PostSummary))
    (args : EditContentArgs) :
    List (String × UpdatePostPayload) × Except String EditContentResult :=
  let title := args.changes.title
  let description := args.changes.description
  let html : Option String :=
    match description with
    | some d => if d = "" then none else some (toRichHtml d)
    | none => none
  let plainText : Option String :=
    match html with
    | some h => if h = "" then none else some (htmlToPlainText h)
    | none => none
  let previewPayload : EditPreview :=
    { content_id := args.content_id, title := title, description := description,
      html := html, plain_text := plainText }
  if args.confirm.getD false = false then
    ([], .ok (.requiresConfirmation previewPayload editInstructions))
  else
    let postData : UpdatePostPayload :=
      { title := if optTruthy title then title else none,
        content_body := if optTruthy description && optTruthy html then html else none }
    ([(args.content_id, postData)], (backend args.content_id postData).map (fun p => .written p))

/-! ## Tool-result cache and `find_content` executor (route.ts 15-18, 256-318)

`toolResultCache` is a `Map<string, {expiryMs, payload}>`; only
`find_content` reads or writes it.  The HTTP GET of lines 270-306 (URL
construction, fetch, response normalisation into items) is modelled by the
`backend` oracle, which receives the lower-cased `type` and the query and
returns the normalized `FindContentResult`; the executor returns the list of
backend search requests it issued. -/

structure CacheEntry where
  expiryMs : Nat
  payload : FindContentResult
deriving DecidableEq

abbrev ToolCache := List (String × CacheEntry)

/-- `TOOL_CACHE_TTL_MS = 5_000` (line 18). -/
def TOOL_CACHE_TTL_MS : Nat := 5000

/-- `toolResultCache.get` (association-list view of the `Map`). -/
def cacheLookup (cache : ToolCache) (key : String) : Option CacheEntry :=
  match cache.find? (fun e => e.1 = key) with
  | some e => some e.2
  | none => none

/-- `toolResultCache.set`: prepending shadows any earlier binding, which is
observationally the `Map.set` overwrite for `get`. -/
def cacheSet (cache : ToolCache) (key : String) (entry : CacheEntry) : ToolCache :=
  (key, entry) :: cache

/-- `String.prototype.toLowerCase` (character-map view). -/
def jsToLower (s : String) : String := ⟨s.data.map Char.toLower⟩

/-- `JSON.stringify({ query: args.query || '', type: postType })` for
quote-free inputs (line 262). -/
def findStableArgs (query type : String) : String :=
  "\x7b\"query\":\"" ++ query ++ "\",\"type\":\"" ++ type ++ "\"\x7d"

/-- The live-entry test of lines 265-268: a hit only when
`cached.expiryMs > now` (strictly in the future). -/
def cacheLive (cache : ToolCache) (key : String) (now : Nat) : Option FindContentResult :=
  match cacheLookup cache key with
  | some entry => if now < entry.expiryMs then some entry.payload else none
  | none => none

def find_content (backend : String → String → Except String FindContentResult)
    (now : Nat) (cache : ToolCache) (args : FindContentArgs) :
    ToolCache × List (String × String) × Except String FindContentResult :=
  let postType := jsToLower (args.type.getD "all")
  let cacheKey := "find_content|" ++ findStableArgs args.query postType
  match cacheLive cache cacheKey now with
  | some payload => (cache, [], .ok payload)
  | none =>
    match backend postType args.query with
    | .error e => (cache, [(postType, args.query)], .error e)
    | .ok result =>
      (cacheSet cache cacheKey ⟨now + TOOL_CACHE_TTL_MS, result⟩,
       [(postType, args.query)], .ok result)

/-! ## `replacePlaceholderLinksWithToolUrls` (route.ts lines 437-455) -/

/-- A tool execution recorded in `executedToolResults` (line 157). -/
structure ExecutedToolResult where
  name : String
  result : FunctionResult
deriving DecidableEq

/-- `(result.result as FindContentResult)?.items ?? []`: a non-find result
has no `items` field, so the cast yields `[]`. -/
def resultItems : FunctionResult → List FindItem
  | .find r => r.items
  | _ => []

/-- Lines 439-446: the links of executed `find_content` results, in order,
keeping only non-blank strings. -/
def collectToolLinks (toolResults : List ExecutedToolResult) : List String :=
  (toolResults.filter (fun r => r.name = "find_content")).flatMap
    (fun r => (resultItems r.result).filterMap (fun item =>
      match item.link with
      | some l => if trimC l.data = [] then none else some l
      | none => none))

/-- One attempted match of `/\[([^\]]+)\]\(#\)/` at the head of the input:
returns the (non-empty, `]`-free) label and the input after the match. -/
def phMatch : List Char → Option (List Char × List Char)
  | [] => none
  | c :: cs =>
    if c = '[' then
      let label := cs.takeWhile (fun x => x ≠ ']')
      if label = [] then none
      else
        match cs.dropWhile (fun x => x ≠ ']') with
        | ']' :: '(' :: '#' :: ')' :: tail => some (label, tail)
        | _ => none
    else none

/-- The global replace of lines 449-454: each successive match consumes the
next collected link; once the links run out (`linkIndex >= links.length`)
the match text is emitted unchanged (but still consumed). -/
def phGo : Nat → List (List Char) → List Char → List Char
  | 0, _, l => l
  | _ + 1, _, [] => []
  | fuel + 1, links, c :: cs =>
    match phMatch (c :: cs) with
    | some (label, tail) =>
      match links with
      | [] => ('[' :: (label ++ "](#)".data)) ++ phGo fuel [] tail
      | url :: more => ('[' :: (label ++ "](".data ++ url ++ ")".data)) ++ phGo fuel more tail
    | none => c :: phGo fuel links cs

def replacePlaceholderLinksWithToolUrls (text : String)
    (toolResults : List ExecutedToolResult) : String :=
  if text = "" then text
  else
    let links := collectToolLinks toolResults
    if links = [] then text
    else ⟨phGo text.data.length (links.map String.data) text.data⟩

/-! ## Messages and the orchestration loop (route.ts lines 550-795)

The OpenRouter chat-completions call is the oracle
`llm : List Message → Bool → Except UpstreamErr Message` (the boolean is
`tool_choice: "auto"` vs `"none"`); an `Except.error` covers both an axios
error (whose optional `status` is the upstream HTTP status) and a
response-shape failure.  `JSON.parse` on tool arguments, the canonical
`JSON.stringify` of the parsed value, and `JSON.stringify` of tool results
are the abstract parameters `parse`, `canon` and `stringify`.  Conversation
persistence and token accounting (lines 752-783) do not affect the response
content and are not modelled. -/

inductive Role where
  | system | user | assistant | tool
deriving DecidableEq

/-- One entry of `assistantMessage.tool_calls`: `args` is the JSON text
`toolCall.function.arguments`. -/
structure ToolCallRec where
  id : String
  name : String
  args : String
deriving DecidableEq

/-- `Message` (src/types/chat.ts); an absent `tool_calls` array and an empty
one behave identically at line 630 and are both `[]`. -/
structure Message where
  role : Role
  content : Option String
  tool_calls : List ToolCallRec := []
  tool_call_id : Option String := none
  name : Option String := none
deriving DecidableEq

/-- An upstream failure: `status` is `axiosError?.response?.status`. -/
structure UpstreamErr where
  status : Option Nat
  msg : String
deriving DecidableEq

/-- The environment of one request:  `A` is the type of parsed tool
arguments. -/
structure ChatEnv (A : Type) where
  apiKey : Bool
  maxContext : Nat
  existingHistory : List Message
  llm : List Message → Bool → Except UpstreamErr Message
  parse : String → Except String A
  canon : A → String
  funcs : String → Option (A → Except String FunctionResult)
  stringify : FunctionResult → String

/-- First sentence of the `SYSTEM_PROMPT` constant (src/app/prompts/system);
no claim depends on the prompt text. -/
def SYSTEM_PROMPT : String := "You are Lotte, assistant for Needpedia.org."

def systemMessage : Message := { role := .system, content := some SYSTEM_PROMPT }

/-- A tool-result message pushed into `toolResults` (lines 648-684). -/
def toolMsg (id nm content : String) : Message :=
  { role := .tool, content := some content, tool_call_id := some id, name := some nm }

/-- `JSON.stringify({ error: ... })` for quote-free messages. -/
def errorPayload (msg : String) : String :=
  "\x7b\"error\":\"" ++ msg ++ "\"\x7d"

def unsupportedPayload (name : String) : String :=
  errorPayload ("Unsupported tool: " ++ name)

/-- `argsString || '{}'` (line 641). -/
def defaultedArgs (s : String) : String := if s = "" then "\x7b\x7d" else s

/-- The per-round tool-call loop (lines 637-687).  The memo is the
association list `roundMemo : key ↦ (name, content)`.  Returns the tool
result messages, the executed (successful) tool results, and the round keys
of the executor invocations that took place — or, mirroring the placement of
`JSON.parse` OUTSIDE the `try` of line 645, propagates a parse failure,
which aborts the whole round. -/
def processCalls {A : Type} (env : ChatEnv A) :
    List ToolCallRec → List (String × String × String) →
    Except String (List Message × List ExecutedToolResult × List String)
  | [], _ => .ok ([], [], [])
  | tc :: rest, memo =>
    match env.parse (defaultedArgs tc.args) with
    | .error e => .error e
    | .ok args =>
      let stableArgs := env.canon args
      let roundKey := tc.name ++ "|" ++ stableArgs
      match memo.find? (fun m => m.1 = roundKey) with
      | some m =>
        match processCalls env rest memo with
        | .error e => .error e
        | .ok (res, ex, inv) => .ok (toolMsg tc.id m.2.1 m.2.2 :: res, ex, inv)
      | none =>
        match env.funcs tc.name with
        | none =>
          match processCalls env rest memo with
          | .error e => .error e
          | .ok (res, ex, inv) =>
            .ok (toolMsg tc.id tc.name (unsupportedPayload tc.name) :: res, ex, inv)
        | some f =>
          match f args with
          | .error err =>
            match processCalls env rest memo with
            | .error e => .error e
            | .ok (res, ex, inv) =>
              .ok (toolMsg tc.id tc.name (errorPayload err) :: res, ex, roundKey :: inv)
          | .ok result =>
            let payload := env.stringify result
            match processCalls env rest ((roundKey, tc.name, payload) :: memo) with
            | .error e => .error e
            | .ok (res, ex, inv) =>
              .ok (toolMsg tc.id tc.name payload :: res,
                   ⟨tc.name, result⟩ :: ex, roundKey :: inv)

/-- `!assistantMessage.content` && no tool calls (line 712): JavaScript
treats `undefined` and `""` as falsy. -/
def contentFalsy (c : Option String) : Bool := c.getD "" = ""

/-- The `while` loop of lines 630-735.  `fuel = 5 - safetyCounter`, so the
guard `safetyCounter < 5` is `fuel > 0` and entering the body consumes one
unit.  Returns (outcome, message lists sent to the model, rounds entered);
`executedToolResults` accumulates across rounds (line 628). -/
def runLoop {A : Type} (env : ChatEnv A) (requestMessages : List Message) :
    Nat → Message →
    Except UpstreamErr (Message × List ExecutedToolResult) × List (List Message) × Nat
  | 0, asst => (.ok (asst, []), [], 0)
  | fuel + 1, asst =>
    if asst.tool_calls = [] then (.ok (asst, []), [], 0)
    else
      match processCalls env asst.tool_calls [] with
      | .error e => (.error { status := none, msg := e }, [], 1)
      | .ok (results, executed, _) =>
        let updated := requestMessages ++ [asst] ++ results
        match env.llm updated true with
        | .error e => (.error e, [updated], 1)
        | .ok asst2 =>
          if contentFalsy asst2.content && asst2.tool_calls = [] then
            match env.llm updated false with
            | .error e => (.error e, [updated, updated], 1)
            | .ok asst3 => (.ok (asst3, executed), [updated, updated], 1)
          else
            match runLoop env requestMessages fuel asst2 with
            | (.error e, sent, n) => (.error e, updated :: sent, n + 1)
            | (.ok (m, ex), sent, n) => (.ok (m, executed ++ ex), updated :: sent, n + 1)

/-- `if (!userToken)` (line 565): absent or empty token is falsy. -/
def uTokenFalsy : Option String → Bool
  | some s => s = ""
  | none => true

/-- Context trimming (lines 580-587): keep everything if within the bound,
otherwise the leading system message (when there is one) plus the
`max 1 (maxContext - system.length)` most recent messages (`slice(-k)`). -/
def trimContext (maxContext : Nat) (joined : List Message) : List Message :=
  if joined.length ≤ maxContext then joined
  else
    let system : List Message :=
      match joined with
      | m :: _ => if m.role = .system then [m] else []
      | [] => []
    system ++ joined.drop (joined.length - max 1 (maxContext - system.length))

/-- The JSON body produced by the route (status, `error` field of the
non-200 branches, assistant content of the 200 branch). -/
structure ChatResponse where
  status : Nat
  error : Option String
  content : Option String
deriving DecidableEq

structure ChatInput where
  messages : List Message
  userToken : Option String
deriving DecidableEq

/-- Observations recorded alongside the response: every message list sent to
the model and the number of rounds entered. -/
structure HandlerTrace where
  sent : List (List Message)
  rounds : Nat
deriving DecidableEq

/-- Lines 738-744: the generic fallback sentence. -/
def fallbackContent (m : Message) : String :=
  if m.tool_calls ≠ [] then
    "I\x27ve processed your request using the available tools. Please let me know if you need any additional information."
  else
    "I\x27ve processed your request. Please let me know if you need any additional information."

/-- Lines 572-587: existing history, prepended system prompt when none is
present anywhere in it, incoming messages, then context trimming. -/
def requestMessagesOf {A : Type} (env : ChatEnv A) (input : ChatInput) : List Message :=
  let baseHistory :=
    if env.existingHistory.any (fun m => m.role = .system) then env.existingHistory
    else systemMessage :: env.existingHistory
  trimContext env.maxContext (baseHistory ++ input.messages)

/-- The `POST` route handler (lines 550-795): auth check, context assembly
and trimming, first model call, tool rounds, fallback content, placeholder
rewriting; the outer `catch` maps an error to
`status = axiosError?.response?.status || 500` with its message. -/
def POST {A : Type} (env : ChatEnv A) (input : ChatInput) : ChatResponse × HandlerTrace :=
  if uTokenFalsy input.userToken then
    ({ status := 401, error := some "Unauthenticated: missing user token", content := none },
     ⟨[], 0⟩)
  else
    let requestMessages := requestMessagesOf env input
    if env.apiKey = false then
      ({ status := 500, error := some "OpenRouter API key is not configured", content := none },
       ⟨[], 0⟩)
    else
      match env.llm requestMessages true with
      | .error e =>
        ({ status := e.status.getD 500, error := some e.msg, content := none },
         ⟨[requestMessages], 0⟩)
      | .ok asst0 =>
        match runLoop env requestMessages 5 asst0 with
        | (.error e, sent, rounds) =>
          ({ status := e.status.getD 500, error := some e.msg, content := none },
           ⟨requestMessages :: sent, rounds⟩)
        | (.ok (finalMsg, executed), sent, rounds) =>
          let content1 :=
            if trimC (finalMsg.content.getD "").data = [] then fallbackContent finalMsg
            else finalMsg.content.getD ""
          let content2 := replacePlaceholderLinksWithToolUrls content1 executed
          ({ status := 200, error := none, content := some content2 },
           ⟨requestMessages :: sent, rounds⟩)

/-! ## Claim C1 — confirmation gating of `create_content` / `edit_content` -/

/-- C1: a `create_content` or `edit_content` call whose arguments do not
carry `confirm = true` returns the `requires_confirmation` preview (with the
interpreted title/description, the derived HTML and its plain text) and
issues no write request; with `confirm = true` and otherwise identical
arguments it issues exactly one write request. -/
theorem confirm_gating
    (cb : CreatePostPayload → Except String (Option PostSummary))
    (eb : String → UpdatePostPayload → Except String (Option PostSummary))
    (ca : CreateContentArgs) (ea : EditContentArgs) :
    (ca.confirm ≠ some true →
      (create_content cb ca).1 = [] ∧
      (create_content cb ca).2 = .ok (.requiresConfirmation
        { title := ca.title, content_type := ca.content_type,
          description := ca.description, html := toRichHtml ca.description,
          plain_text := htmlToPlainText (toRichHtml ca.description),
          parent_id := ca.parent_id } createInstructions)) ∧
    (ca.confirm = some true → (create_content cb ca).1.length = 1) ∧
    (ea.confirm ≠ some true →
      (edit_content eb ea).1 = [] ∧
      (edit_content eb ea).2 = .ok (.requiresConfirmation
        { content_id := ea.content_id, title := ea.changes.title,
          description := ea.changes.description,
          html := match ea.changes.description with
            | some d => if d = "" then none else some (toRichHtml d)
            | none => none,
          plain_text := match (match ea.changes.description with
            | some d => if d = "" then none else some (toRichHtml d)
            | none => none : Option String) with
            | some h => if h = "" then none else some (htmlToPlainText h)
            | none => none } editInstructions)) ∧
    (ea.confirm = some true → (edit_content eb ea).1.length = 1) := by
  have hc : ∀ (o : Option Bool), o ≠ some true → o.getD false = false := by
    rintro (_ | _ | _) h <;> simp_all
  refine ⟨fun h => ?_, fun h => ?_, fun h => ?_, fun h => ?_⟩
  · simp [create_content, hc _ h]
  · simp [create_content, h]
  · simp [edit_content, hc _ h]
  · simp [edit_content, h]

def previewCreateArgs : CreateContentArgs :=
  { title := "Bike lanes", description := "safer streets", content_type := "idea",
    parent_id := none, confirm := none }

def confirmedCreateArgs : CreateContentArgs := { previewCreateArgs with confirm := some true }

def previewEditArgs : EditContentArgs :=
  { content_id := "42", changes := { title := some "New title", description := none },
    confirm := some false }

def confirmedEditArgs : EditContentArgs := { previewEditArgs with confirm := some true }

def unreachableCreateBackend : CreatePostPayload → Except String (Option PostSummary) :=
  fun _ => .error "no call expected"

def unreachableEditBackend : String → UpdatePostPayload → Except String (Option PostSummary) :=
  fun _ _ => .error "no call expected"

theorem confirm_gating_witness :
    (create_content unreachableCreateBackend previewCreateArgs).1 = [] ∧
    (create_content unreachableCreateBackend confirmedCreateArgs).1.length = 1 ∧
    (edit_content unreachableEditBackend previewEditArgs).1 = [] ∧
    (edit_content unreachableEditBackend confirmedEditArgs).1.length = 1 :=
  ⟨(confirm_gating unreachableCreateBackend unreachableEditBackend
      previewCreateArgs previewEditArgs).1 (by decide) |>.1,
   (confirm_gating unreachableCreateBackend unreachableEditBackend
      confirmedCreateArgs confirmedEditArgs).2.1 rfl,
   (confirm_gating unreachableCreateBackend unreachableEditBackend
      previewCreateArgs previewEditArgs).2.2.1 (by decide) |>.1,
   (confirm_gating unreachableCreateBackend unreachableEditBackend
      confirmedCreateArgs confirmedEditArgs).2.2.2 rfl⟩

/-! ## Claim C9 — tool-result cache contract -/

/-- C9: a cache lookup returns a stored payload only when its expiry is
strictly in the future (otherwise the backend search is performed), a store
sets expiry to the call timestamp plus the 5-second TTL, and a second
identical `find_content` call within the TTL window performs no further
backend search — one request overall. -/
theorem find_content_cache_contract
    (backend : String → String → Except String FindContentResult)
    (now now2 : Nat) (cache : ToolCache) (args : FindContentArgs) :
    (∀ p, cacheLive cache
        ("find_content|" ++ findStableArgs args.query (jsToLower (args.type.getD "all"))) now = some p →
      find_content backend now cache args = (cache, [], .ok p)) ∧
    (cacheLive cache
        ("find_content|" ++ findStableArgs args.query (jsToLower (args.type.getD "all"))) now = none →
      (find_content backend now cache args).2.1 = [(jsToLower (args.type.getD "all"), args.query)]) ∧
    (∀ r, cacheLive cache
        ("find_content|" ++ findStableArgs args.query (jsToLower (args.type.getD "all"))) now = none →
      backend (jsToLower (args.type.getD "all")) args.query = .ok r →
      cacheLookup (find_content backend now cache args).1
          ("find_content|" ++ findStableArgs args.query (jsToLower (args.type.getD "all"))) =
        some ⟨now + TOOL_CACHE_TTL_MS, r⟩ ∧
      (now2 < now + TOOL_CACHE_TTL_MS →
        find_content backend now2 (find_content backend now cache args).1 args =
          ((find_content backend now cache args).1, [], .ok r))) := by
  refine ⟨fun p hp => ?_, fun hm => ?_, fun r hm hb => ?_⟩
  · simp [find_content, hp]
  · unfold find_content
    simp only [hm]
    cases backend (jsToLower (args.type.getD "all")) args.query <;> simp
  · have h1 : find_content backend now cache args =
        (cacheSet cache ("find_content|" ++ findStableArgs args.query (jsToLower (args.type.getD "all")))
            ⟨now + TOOL_CACHE_TTL_MS, r⟩,
         [(jsToLower (args.type.getD "all"), args.query)], .ok r) := by
      simp [find_content, hm, hb]
    refine ⟨?_, fun hwin => ?_⟩
    · rw [h1]
      simp [cacheLookup, cacheSet]
    · rw [h1]
      simp [find_content, cacheLive, cacheLookup, cacheSet, hwin]

def searchBackendW : String → String → Except String FindContentResult :=
  fun _ _ => .ok ⟨[{ title := "Bike lanes", type := "idea", id := some "9",
                     link := some "http://n.example/posts/9" }]⟩

def findArgsW : FindContentArgs := { query := "bike", type := none }

theorem find_content_cache_contract_witness :
    (find_content searchBackendW 0 [] findArgsW).2.1 = [("all", "bike")] ∧
    find_content searchBackendW 4999 (find_content searchBackendW 0 [] findArgsW).1 findArgsW =
      ((find_content searchBackendW 0 [] findArgsW).1, [],
       .ok ⟨[{ title := "Bike lanes", type := "idea", id := some "9",
               link := some "http://n.example/posts/9" }]⟩) :=
  ⟨(find_content_cache_contract searchBackendW 0 4999 [] findArgsW).2.1 rfl,
   ((find_content_cache_contract searchBackendW 0 4999 [] findArgsW).2.2 _ rfl rfl).2
     (by decide)⟩

/-! ## Claim C8 — fatal error paths of the handler -/

/-- C8: a missing caller token yields a 401 response before any model call;
a missing upstream API key yields a 500 response before any model call; a
failing first model call yields a response carrying the upstream status and
error message (non-200 whenever the upstream status is). -/
theorem fatal_error_paths {A : Type} (env : ChatEnv A) (input : ChatInput)
    (s : Nat) (m : String) :
    (uTokenFalsy input.userToken = true →
      (POST env input).1.status = 401 ∧ (POST env input).2.sent = []) ∧
    (uTokenFalsy input.userToken = false → env.apiKey = false →
      (POST env input).1.status = 500 ∧ (POST env input).2.sent = []) ∧
    (uTokenFalsy input.userToken = false → env.apiKey = true →
      env.llm (requestMessagesOf env input) true = .error ⟨some s, m⟩ → s ≠ 200 →
      (POST env input).1 = { status := s, error := some m, content := none } ∧
        (POST env input).1.status ≠ 200) := by
  refine ⟨fun h => ?_, fun h hk => ?_, fun h hk he hs => ?_⟩
  · simp [POST, h]
  · simp [POST, h, hk]
  · have : (POST env input).1 = { status := s, error := some m, content := none } := by
      simp [POST, h, hk, he]
    exact ⟨this, by rw [this]; simpa using hs⟩

def deadLlm : List Message → Bool → Except UpstreamErr Message :=
  fun _ _ => .error ⟨some 503, "Service Unavailable"⟩

def baseEnvW : ChatEnv String :=
  { apiKey := true, maxContext := 16, existingHistory := [], llm := deadLlm,
    parse := fun st => .ok st, canon := fun st => st, funcs := fun _ => none,
    stringify := fun _ => "" }

def userMsgW : Message := { role := .user, content := some "hello" }

theorem fatal_error_paths_witness :
    (POST baseEnvW { messages := [userMsgW], userToken := none }).1.status = 401 ∧
    (POST { baseEnvW with apiKey := false }
        { messages := [userMsgW], userToken := some "tok" }).1.status = 500 ∧
    (POST baseEnvW { messages := [userMsgW], userToken := some "tok" }).1 =
      { status := 503, error := some "Service Unavailable", content := none } :=
  ⟨(fatal_error_paths baseEnvW { messages := [userMsgW], userToken := none }
      503 "Service Unavailable").1 rfl |>.1,
   (fatal_error_paths { baseEnvW with apiKey := false }
      { messages := [userMsgW], userToken := some "tok" } 503 "Service Unavailable").2.1
      rfl rfl |>.1,
   ((fatal_error_paths baseEnvW { messages := [userMsgW], userToken := some "tok" }
      503 "Service Unavailable").2.2 rfl rfl rfl (by decide)).1⟩

/-! ## Claim C5 — round bound, termination, non-empty answer -/

theorem trimEndC_eq_nil_iff (l : List Char) : trimEndC l = [] ↔ ∀ c ∈ l, jsWs c = true := by
  unfold trimEndC
  rw [List.reverse_eq_nil_iff, List.dropWhile_eq_nil_iff]
  constructor
  · intro h c hc; exact h c (List.mem_reverse.mpr hc)
  · intro h c hc; exact h c (List.mem_reverse.mp hc)

theorem trimC_eq_nil_iff (l : List Char) : trimC l = [] ↔ ∀ c ∈ l, jsWs c = true := by
  unfold trimC
  rw [trimEndC_eq_nil_iff]
  constructor
  · intro h c hc
    rw [← List.takeWhile_append_dropWhile (p := jsWs) (l := l)] at hc
    rcases List.mem_append.mp hc with h1 | h2
    · exact List.mem_takeWhile_imp h1
    · exact h c h2
  · intro h c hc
    exact h c ((List.dropWhile_sublist _).mem hc)

/-- A non-whitespace character survives the placeholder rewrite (matches are
replaced by text starting with a bracket, everything else passes through). -/
theorem phGo_keeps_nonblank :
    ∀ (fuel : Nat) (links : List (List Char)) (l : List Char) (c : Char),
      c ∈ l → jsWs c = false → ∃ d ∈ phGo fuel links l, jsWs d = false := by
  intro fuel
  induction fuel with
  | zero => intro links l c hc hws; exact ⟨c, hc, hws⟩
  | succ fuel ih =>
    intro links l c hc hws
    cases l with
    | nil => cases hc
    | cons x xs =>
      cases hm : phMatch (x :: xs) with
      | some pair =>
        obtain ⟨label, tail⟩ := pair
        cases links with
        | nil =>
          refine ⟨'[', ?_, by decide⟩
          simp [phGo, hm]
        | cons url more =>
          refine ⟨'[', ?_, by decide⟩
          simp [phGo, hm]
      | none =>
        rcases List.mem_cons.mp hc with rfl | hc2
        · exact ⟨c, by simp [phGo, hm], hws⟩
        · obtain ⟨d, hd, hdw⟩ := ih links xs c hc2 hws
          exact ⟨d, by simp [phGo, hm]; right; exact hd, hdw⟩

theorem replacePlaceholder_keeps_nonblank (text : String) (ex : List ExecutedToolResult)
    (h : trimC text.data ≠ []) :
    trimC (replacePlaceholderLinksWithToolUrls text ex).data ≠ [] := by
  unfold replacePlaceholderLinksWithToolUrls
  by_cases ht : text = ""
  · subst ht; simp [trimC, trimEndC] at h
  · simp only [ht, if_false, if_neg]
    by_cases hl : collectToolLinks ex = []
    · simpa [hl] using h
    · simp only [hl, if_neg, if_false]
      obtain ⟨c, hc, hcw⟩ : ∃ c ∈ text.data, jsWs c = false := by
        by_contra hall
        push_neg at hall
        exact h ((trimC_eq_nil_iff _).mpr (fun c hc => by
          have := hall c hc
          revert this
          cases jsWs c <;> simp))
      intro hnil
      obtain ⟨d, hd, hdw⟩ := phGo_keeps_nonblank text.data.length
        ((collectToolLinks ex).map String.data) text.data c hc hcw
      have := (trimC_eq_nil_iff _).mp hnil d hd
      rw [this] at hdw
      cases hdw

theorem fallbackContent_nonblank (m : Message) : trimC (fallbackContent m).data ≠ [] := by
  unfold fallbackContent
  by_cases h : m.tool_calls ≠ [] <;> simp [h] <;> decide

theorem runLoop_rounds_le {A : Type} (env : ChatEnv A) (req : List Message) :
    ∀ (fuel : Nat) (asst : Message), (runLoop env req fuel asst).2.2 ≤ fuel := by
  intro fuel
  induction fuel with
  | zero => intro asst; simp [runLoop]
  | succ fuel ih =>
    intro asst
    by_cases h1 : asst.tool_calls = []
    · simp [runLoop, h1]
    · rw [runLoop, if_neg h1]
      cases hp : processCalls env asst.tool_calls [] with
      | error e => simp
      | ok t =>
        obtain ⟨results, executed, inv⟩ := t
        simp only []
        cases hl : env.llm (req ++ [asst] ++ results) true with
        | error e => simp
        | ok asst2 =>
          simp only []
          by_cases h2 : (contentFalsy asst2.content && decide (asst2.tool_calls = [])) = true
          · rw [if_pos h2]
            cases env.llm (req ++ [asst] ++ results) false <;> simp
          · rw [if_neg h2]
            rcases hr : runLoop env req fuel asst2 with ⟨r, sent, n⟩
            have hn : n ≤ fuel := by
              have := ih asst2
              rw [hr] at this
              exact this
            cases r <;> simpa using Nat.succ_le_succ hn

/-- A hard failure reported by the loop is either a thrown (non-axios)
error, whose status is absent, or an upstream rejection of one of the model
calls it made. -/
theorem runLoop_error_source {A : Type} (env : ChatEnv A) (req : List Message) :
    ∀ (fuel : Nat) (asst : Message) (e : UpstreamErr) (sent : List (List Message)) (n : Nat),
      runLoop env req fuel asst = (.error e, sent, n) →
      e.status = none ∨ ∃ ms b, env.llm ms b = .error e := by
  intro fuel
  induction fuel with
  | zero => intro asst e sent n h; simp [runLoop] at h
  | succ fuel ih =>
    intro asst e sent n h
    by_cases h1 : asst.tool_calls = []
    · simp [runLoop, h1] at h
    · rw [runLoop, if_neg h1] at h
      cases hp : processCalls env asst.tool_calls [] with
      | error pe =>
        rw [hp] at h
        simp only [Prod.mk.injEq, Except.error.injEq] at h
        left
        rw [← h.1]
      | ok t =>
        obtain ⟨results, executed, inv⟩ := t
        rw [hp] at h
        simp only [] at h
        cases hl : env.llm (req ++ [asst] ++ results) true with
        | error e2 =>
          rw [hl] at h
          simp only [Prod.mk.injEq, Except.error.injEq] at h
          right
          exact ⟨_, _, by rw [hl, h.1]⟩
        | ok asst2 =>
          rw [hl] at h
          simp only [] at h
          by_cases h2 : (contentFalsy asst2.content && decide (asst2.tool_calls = [])) = true
          · rw [if_pos h2] at h
            cases hl2 : env.llm (req ++ [asst] ++ results) false with
            | error e3 =>
              rw [hl2] at h
              simp only [Prod.mk.injEq, Except.error.injEq] at h
              right
              exact ⟨_, _, by rw [hl2, h.1]⟩
            | ok asst3 =>
              rw [hl2] at h
              simp at h
          · rw [if_neg h2] at h
            rcases hr : runLoop env req fuel asst2 with ⟨r, sent2, n2⟩
            rw [hr] at h
            cases r with
            | error e3 =>
              simp only [Prod.mk.injEq, Except.error.injEq] at h
              rcases ih asst2 e3 sent2 n2 hr with hn | hup
              · left; rw [← h.1]; exact hn
              · right; rw [← h.1]; exact hup
            | ok p =>
              obtain ⟨m, ex⟩ := p
              simp at h

/-- C5: the loop enters at most 5 rounds (and the model always terminates);
on a 200 response the caller receives the last assistant content — replaced
by the generic fallback sentence when empty or whitespace-only — with the
placeholder links rewritten, and that content is never empty or blank.  The
hypothesis `hax` records the axios contract that a rejected call never
carries upstream status 200. -/
theorem orchestration_round_bound {A : Type} (env : ChatEnv A) (input : ChatInput)
    (hax : ∀ (e : UpstreamErr) (ms : List Message) (b : Bool),
      env.llm ms b = .error e → e.status.getD 500 ≠ 200) :
    (POST env input).2.rounds ≤ 5 ∧
    ((POST env input).1.status = 200 →
      ∃ m ex,
        (POST env input).1.content =
          some (replacePlaceholderLinksWithToolUrls
            (if trimC (m.content.getD "").data = [] then fallbackContent m
             else m.content.getD "") ex) ∧
        ∀ c, (POST env input).1.content = some c → trimC c.data ≠ []) := by
  unfold POST
  by_cases h1 : uTokenFalsy input.userToken = true
  · simp [h1]
  · rw [if_neg h1]
    by_cases h2 : env.apiKey = false
    · simp [h2]
    · rw [if_neg h2]
      simp only []
      cases hf : env.llm (requestMessagesOf env input) true with
      | error e =>
        refine ⟨by simp, fun h200 => absurd ?_ (hax e _ _ hf)⟩
        simpa using h200
      | ok asst0 =>
        simp only []
        rcases hr : runLoop env (requestMessagesOf env input) 5 asst0 with ⟨r, sent, rounds⟩
        have hrounds : rounds ≤ 5 := by
          have := runLoop_rounds_le env (requestMessagesOf env input) 5 asst0
          rw [hr] at this
          exact this
        cases r with
        | error e =>
          refine ⟨by simpa using hrounds, fun h200 => ?_⟩
          have h200s : e.status.getD 500 = 200 := by simpa using h200
          rcases runLoop_error_source env (requestMessagesOf env input) 5 asst0 e sent rounds hr with
            hn | ⟨ms, b, hup⟩
          · rw [hn] at h200s; simp at h200s
          · exact absurd h200s (hax e ms b hup)
        | ok p =>
          obtain ⟨finalMsg, executed⟩ := p
          refine ⟨by simpa using hrounds, fun _ => ⟨finalMsg, executed, rfl, ?_⟩⟩
          intro c hc
          simp only [Option.some.injEq] at hc
          subst hc
          apply replacePlaceholder_keeps_nonblank
          by_cases hb : trimC (finalMsg.content.getD "").data = []
          · rw [if_pos hb]; exact fallbackContent_nonblank finalMsg
          · rw [if_neg hb]; exact hb

def happyLlm : List Message → Bool → Except UpstreamErr Message :=
  fun _ _ => .ok { role := .assistant, content := some "All done." }

def happyEnvW : ChatEnv String := { baseEnvW with llm := happyLlm }

theorem orchestration_round_bound_witness :
    (POST happyEnvW { messages := [userMsgW], userToken := some "tok" }).2.rounds ≤ 5 ∧
    (∃ m ex,
      (POST happyEnvW { messages := [userMsgW], userToken := some "tok" }).1.content =
        some (replacePlaceholderLinksWithToolUrls
          (if trimC (m.content.getD "").data = [] then fallbackContent m
           else m.content.getD "") ex) ∧
      ∀ c, (POST happyEnvW { messages := [userMsgW], userToken := some "tok" }).1.content = some c →
        trimC c.data ≠ []) := by
  have h := orchestration_round_bound happyEnvW { messages := [userMsgW], userToken := some "tok" }
    (fun e ms b hup => by simp [happyEnvW, baseEnvW, happyLlm] at hup)
  exact ⟨h.1, h.2 rfl⟩

/-! ## Claim C2 — round-scoped memoization -/

def failingToolEnv : ChatEnv String :=
  { apiKey := true, maxContext := 16, existingHistory := [], llm := happyLlm,
    parse := fun st => .ok st, canon := fun st => st,
    funcs := fun n =>
      if n = "find_content" then some (fun _ => .error "API request failed: 500") else none,
    stringify := fun _ => "" }

def failCallA : ToolCallRec := { id := "call_1", name := "find_content", args := "q" }

def failCallB : ToolCallRec := { id := "call_2", name := "find_content", args := "q" }

/-- C2 counterexample: the round memo is only written after a successful
execution (route.ts line 671 sits after the `await` of line 667), so two
identical calls whose executor throws invoke the executor twice — the
invocation log below carries the same round key twice, and the second call
gets a freshly computed error result, not a memoized one. -/
theorem round_memo_counterexample :
    processCalls failingToolEnv [failCallA, failCallB] [] =
      .ok ([toolMsg "call_1" "find_content" (errorPayload "API request failed: 500"),
            toolMsg "call_2" "find_content" (errorPayload "API request failed: 500")],
           [], ["find_content|q", "find_content|q"]) := by
  rfl

/-- The round key of a tool call: tool name and canonicalized argument JSON
(line 642-643); `none` when the arguments do not parse. -/
def keyOf {A : Type} (env : ChatEnv A) (tc : ToolCallRec) : Option String :=
  match env.parse (defaultedArgs tc.args) with
  | .ok a => some (tc.name ++ "|" ++ env.canon a)
  | .error _ => none

/-- Once the memo holds a key, later calls with that key are answered from
the memo: no further executor invocation for that key, and each such call
receives the memoized name and content. -/
theorem processCalls_hit_stable {A : Type} (env : ChatEnv A) :
    ∀ (calls : List ToolCallRec) (memo : List (String × String × String))
      (k nm ct : String),
      memo.find? (fun m => m.1 = k) = some (k, nm, ct) →
      ∀ (res : List Message) (ex : List ExecutedToolResult) (inv : List String),
      processCalls env calls memo = .ok (res, ex, inv) →
      inv.count k = 0 ∧
      ∀ (j : Nat) (tc : ToolCallRec), calls.get? j = some tc → keyOf env tc = some k →
        res.get? j = some (toolMsg tc.id nm ct) := by
  intro calls
  induction calls with
  | nil =>
    intro memo k nm ct hm res ex inv h
    simp only [processCalls, Except.ok.injEq, Prod.mk.injEq] at h
    obtain ⟨h1, h2, h3⟩ := h
    subst h1; subst h3
    exact ⟨rfl, fun j tc hj => by simp at hj⟩
  | cons tc rest ih =>
    intro memo k nm ct hm res ex inv h
    rw [processCalls] at h
    cases hparse : env.parse (defaultedArgs tc.args) with
    | error e => rw [hparse] at h; cases h
    | ok a =>
      rw [hparse] at h
      simp only [] at h
      have hkeyOf : keyOf env tc = some (tc.name ++ "|" ++ env.canon a) := by
        unfold keyOf; rw [hparse]
      cases hfind : memo.find? (fun m => m.1 = tc.name ++ "|" ++ env.canon a) with
      | some m =>
        rw [hfind] at h; simp only [] at h
        cases hrest : processCalls env rest memo with
        | error e => rw [hrest] at h; cases h
        | ok t =>
          obtain ⟨res2, ex2, inv2⟩ := t
          rw [hrest] at h
          simp only [Except.ok.injEq, Prod.mk.injEq] at h
          obtain ⟨hres, hex, hinv⟩ := h
          obtain ⟨hc, hind⟩ := ih memo k nm ct hm res2 ex2 inv2 hrest
          subst hres; subst hinv
          refine ⟨hc, fun j tcj hj hkj => ?_⟩
          cases j with
          | zero =>
            simp only [List.get?] at hj
            injection hj with hj; subst hj
            have hkk : tc.name ++ "|" ++ env.canon a = k := by
              rw [hkeyOf] at hkj; injection hkj
            rw [hkk] at hfind
            rw [hm] at hfind
            injection hfind with hfind
            rw [← hfind]
            rfl
          | succ j => exact hind j tcj hj hkj
      | none =>
        rw [hfind] at h; simp only [] at h
        have hne : tc.name ++ "|" ++ env.canon a ≠ k := by
          intro hkk; rw [hkk, hm] at hfind; cases hfind
        cases hfun : env.funcs tc.name with
        | none =>
          rw [hfun] at h; simp only [] at h
          cases hrest : processCalls env rest memo with
          | error e => rw [hrest] at h; cases h
          | ok t =>
            obtain ⟨res2, ex2, inv2⟩ := t
            rw [hrest] at h
            simp only [Except.ok.injEq, Prod.mk.injEq] at h
            obtain ⟨hres, hex, hinv⟩ := h
            obtain ⟨hc, hind⟩ := ih memo k nm ct hm res2 ex2 inv2 hrest
            subst hres; subst hinv
            refine ⟨hc, fun j tcj hj hkj => ?_⟩
            cases j with
            | zero =>
              simp only [List.get?] at hj
              injection hj with hj; subst hj
              rw [hkeyOf] at hkj; injection hkj with hkj
              exact absurd hkj hne
            | succ j => exact hind j tcj hj hkj
        | some f =>
          rw [hfun] at h; simp only [] at h
          cases hexec : f a with
          | error err =>
            rw [hexec] at h; simp only [] at h
            cases hrest : processCalls env rest memo with
            | error e => rw [hrest] at h; cases h
            | ok t =>
              obtain ⟨res2, ex2, inv2⟩ := t
              rw [hrest] at h
              simp only [Except.ok.injEq, Prod.mk.injEq] at h
              obtain ⟨hres, hex, hinv⟩ := h
              obtain ⟨hc, hind⟩ := ih memo k nm ct hm res2 ex2 inv2 hrest
              subst hres; subst hinv
              refine ⟨?_, fun j tcj hj hkj => ?_⟩
              · simp [List.count_cons, hc, hne]
              · cases j with
                | zero =>
                  simp only [List.get?] at hj
                  injection hj with hj; subst hj
                  rw [hkeyOf] at hkj; injection hkj with hkj
                  exact absurd hkj hne
                | succ j => exact hind j tcj hj hkj
          | ok r =>
            rw [hexec] at h; simp only [] at h
            cases hrest : processCalls env rest
                ((tc.name ++ "|" ++ env.canon a, tc.name, env.stringify r) :: memo) with
            | error e => rw [hrest] at h; cases h
            | ok t =>
              obtain ⟨res2, ex2, inv2⟩ := t
              rw [hrest] at h
              simp only [Except.ok.injEq, Prod.mk.injEq] at h
              obtain ⟨hres, hex, hinv⟩ := h
              have hm2 : ((tc.name ++ "|" ++ env.canon a, tc.name, env.stringify r) :: memo).find?
                  (fun m => m.1 = k) = some (k, nm, ct) := by
                simp [List.find?_cons, hne, hm]
              obtain ⟨hc, hind⟩ := ih _ k nm ct hm2 res2 ex2 inv2 hrest
              subst hres; subst hinv
              refine ⟨?_, fun j tcj hj hkj => ?_⟩
              · simp [List.count_cons, hc, hne]
              · cases j with
                | zero =>
                  simp only [List.get?] at hj
                  injection hj with hj; subst hj
                  rw [hkeyOf] at hkj; injection hkj with hkj
                  exact absurd hkj hne
                | succ j => exact hind j tcj hj hkj

/-- Processing the first call with a given round key, when its executor
succeeds: the key is invoked exactly once in the whole round, and every
later call with the same key receives the memoized payload. -/
theorem processCalls_first_success {A : Type} (env : ChatEnv A)
    (c1 : ToolCallRec) (a : A) (f : A → Except String FunctionResult) (r : FunctionResult)
    (hpa : env.parse (defaultedArgs c1.args) = .ok a)
    (hf : env.funcs c1.name = some f) (hr : f a = .ok r) :
    ∀ (pre : List ToolCallRec) (rest : List ToolCallRec) (memo : List (String × String × String)),
      memo.find? (fun m => m.1 = c1.name ++ "|" ++ env.canon a) = none →
      (∀ tc ∈ pre, keyOf env tc ≠ some (c1.name ++ "|" ++ env.canon a)) →
      ∀ (res : List Message) (ex : List ExecutedToolResult) (inv : List String),
      processCalls env (pre ++ c1 :: rest) memo = .ok (res, ex, inv) →
      inv.count (c1.name ++ "|" ++ env.canon a) = 1 ∧
      res.get? pre.length = some (toolMsg c1.id c1.name (env.stringify r)) ∧
      ∀ (j : Nat) (tc : ToolCallRec), rest.get? j = some tc →
        keyOf env tc = some (c1.name ++ "|" ++ env.canon a) →
        res.get? (pre.length + 1 + j) = some (toolMsg tc.id c1.name (env.stringify r)) := by
  intro pre
  induction pre with
  | nil =>
    intro rest memo hmemo _ res ex inv h
    rw [List.nil_append, processCalls] at h
    rw [hpa] at h; simp only [] at h
    rw [hmemo] at h; simp only [] at h
    rw [hf] at h; simp only [] at h
    rw [hr] at h; simp only [] at h
    cases hrest : processCalls env rest
        ((c1.name ++ "|" ++ env.canon a, c1.name, env.stringify r) :: memo) with
    | error e => rw [hrest] at h; cases h
    | ok t =>
      obtain ⟨res2, ex2, inv2⟩ := t
      rw [hrest] at h
      simp only [Except.ok.injEq, Prod.mk.injEq] at h
      obtain ⟨hres, hex, hinv⟩ := h
      have hm2 : ((c1.name ++ "|" ++ env.canon a, c1.name, env.stringify r) :: memo).find?
          (fun m => m.1 = c1.name ++ "|" ++ env.canon a) =
          some (c1.name ++ "|" ++ env.canon a, c1.name, env.stringify r) := by
        simp [List.find?_cons]
      obtain ⟨hc, hind⟩ := processCalls_hit_stable env rest _ _ _ _ hm2 res2 ex2 inv2 hrest
      subst hres; subst hinv
      refine ⟨by simp [List.count_cons, hc], rfl, fun j tcj hj hkj => ?_⟩
      simp only [List.length_nil]
      have harith0 : 0 + 1 + j = j + 1 := by omega
      rw [harith0, List.get?_cons_succ]
      exact hind j tcj hj hkj
  | cons tc0 pre ih =>
    intro rest memo hmemo hpre res ex inv h
    rw [List.cons_append, processCalls] at h
    cases hparse0 : env.parse (defaultedArgs tc0.args) with
    | error e => rw [hparse0] at h; cases h
    | ok a0 =>
      rw [hparse0] at h; simp only [] at h
      have hk0 : keyOf env tc0 = some (tc0.name ++ "|" ++ env.canon a0) := by
        unfold keyOf; rw [hparse0]
      have hne0 : tc0.name ++ "|" ++ env.canon a0 ≠ c1.name ++ "|" ++ env.canon a := by
        intro he
        exact hpre tc0 (List.mem_cons_self _ _) (by rw [hk0, he])
      have hpre2 : ∀ tc ∈ pre, keyOf env tc ≠ some (c1.name ++ "|" ++ env.canon a) :=
        fun tc htc => hpre tc (List.mem_cons_of_mem _ htc)
      cases hfind0 : memo.find? (fun m => m.1 = tc0.name ++ "|" ++ env.canon a0) with
      | some m =>
        rw [hfind0] at h; simp only [] at h
        cases hrest : processCalls env (pre ++ c1 :: rest) memo with
        | error e => rw [hrest] at h; cases h
        | ok t =>
          obtain ⟨res2, ex2, inv2⟩ := t
          rw [hrest] at h
          simp only [Except.ok.injEq, Prod.mk.injEq] at h
          obtain ⟨hres, hex, hinv⟩ := h
          obtain ⟨hc, hhead, hind⟩ := ih rest memo hmemo hpre2 res2 ex2 inv2 hrest
          subst hres; subst hinv
          refine ⟨hc, by simpa using hhead, fun j tcj hj hkj => ?_⟩
          have := hind j tcj hj hkj
          simp only [List.length_cons]
          have harith : pre.length + 1 + 1 + j = (pre.length + 1 + j) + 1 := by omega
          rw [harith]
          simpa using this
      | none =>
        rw [hfind0] at h; simp only [] at h
        cases hfun0 : env.funcs tc0.name with
        | none =>
          rw [hfun0] at h; simp only [] at h
          cases hrest : processCalls env (pre ++ c1 :: rest) memo with
          | error e => rw [hrest] at h; cases h
          | ok t =>
            obtain ⟨res2, ex2, inv2⟩ := t
            rw [hrest] at h
            simp only [Except.ok.injEq, Prod.mk.injEq] at h
            obtain ⟨hres, hex, hinv⟩ := h
            obtain ⟨hc, hhead, hind⟩ := ih rest memo hmemo hpre2 res2 ex2 inv2 hrest
            subst hres; subst hinv
            refine ⟨hc, by simpa using hhead, fun j tcj hj hkj => ?_⟩
            have := hind j tcj hj hkj
            simp only [List.length_cons]
            have harith : pre.length + 1 + 1 + j = (pre.length + 1 + j) + 1 := by omega
            rw [harith]
            simpa using this
        | some f0 =>
          rw [hfun0] at h; simp only [] at h
          cases hexec0 : f0 a0 with
          | error err =>
            rw [hexec0] at h; simp only [] at h
            cases hrest : processCalls env (pre ++ c1 :: rest) memo with
            | error e => rw [hrest] at h; cases h
            | ok t =>
              obtain ⟨res2, ex2, inv2⟩ := t
              rw [hrest] at h
              simp only [Except.ok.injEq, Prod.mk.injEq] at h
              obtain ⟨hres, hex, hinv⟩ := h
              obtain ⟨hc, hhead, hind⟩ := ih rest memo hmemo hpre2 res2 ex2 inv2 hrest
              subst hres; subst hinv
              refine ⟨by simp [List.count_cons, hc, hne0], by simpa using hhead,
                fun j tcj hj hkj => ?_⟩
              have := hind j tcj hj hkj
              simp only [List.length_cons]
              have harith : pre.length + 1 + 1 + j = (pre.length + 1 + j) + 1 := by omega
              rw [harith]
              simpa using this
          | ok r0 =>
            rw [hexec0] at h; simp only [] at h
            cases hrest : processCalls env (pre ++ c1 :: rest)
                ((tc0.name ++ "|" ++ env.canon a0, tc0.name, env.stringify r0) :: memo) with
            | error e => rw [hrest] at h; cases h
            | ok t =>
              obtain ⟨res2, ex2, inv2⟩ := t
              rw [hrest] at h
              simp only [Except.ok.injEq, Prod.mk.injEq] at h
              obtain ⟨hres, hex, hinv⟩ := h
              have hmemo2 : ((tc0.name ++ "|" ++ env.canon a0, tc0.name, env.stringify r0)
                  :: memo).find? (fun m => m.1 = c1.name ++ "|" ++ env.canon a) = none := by
                simp [List.find?_cons, hne0, hmemo]
              obtain ⟨hc, hhead, hind⟩ := ih rest _ hmemo2 hpre2 res2 ex2 inv2 hrest
              subst hres; subst hinv
              refine ⟨by simp [List.count_cons, hc, hne0], by simpa using hhead,
                fun j tcj hj hkj => ?_⟩
              have := hind j tcj hj hkj
              simp only [List.length_cons]
              have harith : pre.length + 1 + 1 + j = (pre.length + 1 + j) + 1 := by omega
              rw [harith]
              simpa using this

/-- C2 (amended): for a pair of tool calls in one round with the same name
and argument JSON, where no earlier call of the round shares their round key
and the first call resolves to a known executor whose execution succeeds,
the executor is invoked exactly once for that key and the second call
receives the memoized result of the first. -/
theorem round_memo_on_success {A : Type} (env : ChatEnv A)
    (pre mid post : List ToolCallRec) (c1 c2 : ToolCallRec)
    (hname : c2.name = c1.name) (hargs : c2.args = c1.args)
    (a : A) (f : A → Except String FunctionResult) (r : FunctionResult)
    (hpa : env.parse (defaultedArgs c1.args) = .ok a)
    (hf : env.funcs c1.name = some f) (hr : f a = .ok r)
    (hpre : ∀ tc ∈ pre, keyOf env tc ≠ some (c1.name ++ "|" ++ env.canon a))
    (res : List Message) (ex : List ExecutedToolResult) (inv : List String)
    (hok : processCalls env (pre ++ c1 :: (mid ++ c2 :: post)) [] = .ok (res, ex, inv)) :
    inv.count (c1.name ++ "|" ++ env.canon a) = 1 ∧
    res.get? pre.length = some (toolMsg c1.id c1.name (env.stringify r)) ∧
    res.get? (pre.length + 1 + mid.length) = some (toolMsg c2.id c1.name (env.stringify r)) := by
  obtain ⟨hc, hhead, hind⟩ := processCalls_first_success env c1 a f r hpa hf hr pre
    (mid ++ c2 :: post) [] rfl hpre res ex inv hok
  refine ⟨hc, hhead, ?_⟩
  have hj : (mid ++ c2 :: post).get? mid.length = some c2 := by
    rw [List.get?_append_right (Nat.le_refl _)]
    simp
  have hk2 : keyOf env c2 = some (c1.name ++ "|" ++ env.canon a) := by
    unfold keyOf
    rw [hargs, hpa, hname]
  exact hind mid.length c2 hj hk2

def memoToolEnv : ChatEnv String :=
  { failingToolEnv with
    funcs := fun n =>
      if n = "find_content" then some (fun _ => .ok (.find ⟨[]⟩)) else none,
    stringify := fun _ => "searched" }

theorem round_memo_on_success_witness :
    ∃ res ex inv,
      processCalls memoToolEnv [failCallA, failCallB] [] = .ok (res, ex, inv) ∧
      inv.count "find_content|q" = 1 ∧
      res.get? 0 = some (toolMsg "call_1" "find_content" "searched") ∧
      res.get? 1 = some (toolMsg "call_2" "find_content" "searched") := by
  have hok : processCalls memoToolEnv [failCallA, failCallB] [] =
      .ok ([toolMsg "call_1" "find_content" "searched",
            toolMsg "call_2" "find_content" "searched"],
           [⟨"find_content", .find ⟨[]⟩⟩], ["find_content|q"]) := by rfl
  have h := round_memo_on_success memoToolEnv [] [] [] failCallA failCallB rfl rfl
    "q" (fun _ => .ok (.find ⟨[]⟩)) (.find ⟨[]⟩) rfl rfl rfl
    (fun tc htc => by cases htc) _ _ _ hok
  exact ⟨_, _, _, hok, h.1, h.2.1, h.2.2⟩

/-! ## Claim C3 — which later errors stay soft -/

def toolCallAsst : Message :=
  { role := .assistant, content := none,
    tool_calls := [{ id := "c1", name := "mystery_tool", args := "x" }] }

def followupFailLlm : List Message → Bool → Except UpstreamErr Message :=
  fun ms _ =>
    if ms.length ≤ 2 then .ok toolCallAsst
    else .error ⟨some 503, "Service Unavailable"⟩

def followupFailEnv : ChatEnv String := { baseEnvW with llm := followupFailLlm }

def chatInputW : ChatInput := { messages := [userMsgW], userToken := some "tok" }

/-- C3 counterexample: the first model call succeeds (returning a tool
call), the follow-up model call of the round fails with upstream 503, and
the handler returns the 503 hard failure instead of a 200 response with a
degraded answer — the follow-up error is not converted into fallback text. -/
theorem followup_error_counterexample :
    (POST followupFailEnv chatInputW).1 =
      { status := 503, error := some "Service Unavailable", content := none } := by
  rfl

/-- C3 (amended): after a successful first model call, an executor error is
captured as an error tool-result and the round continues; but a failure of a
follow-up model call inside a round is not caught — it propagates out of the
loop and the handler returns it as a hard (non-200) failure. -/
theorem degraded_vs_hard_failure {A : Type} :
    (∀ (env : ChatEnv A) (tc : ToolCallRec) (rest : List ToolCallRec)
       (memo : List (String × String × String)) (a : A)
       (f : A → Except String FunctionResult) (e : String)
       (res : List Message) (ex : List ExecutedToolResult) (inv : List String),
       env.parse (defaultedArgs tc.args) = .ok a →
       memo.find? (fun m => m.1 = tc.name ++ "|" ++ env.canon a) = none →
       env.funcs tc.name = some f → f a = .error e →
       processCalls env rest memo = .ok (res, ex, inv) →
       processCalls env (tc :: rest) memo =
         .ok (toolMsg tc.id tc.name (errorPayload e) :: res, ex,
              (tc.name ++ "|" ++ env.canon a) :: inv)) ∧
    (∀ (env : ChatEnv A) (req : List Message) (fuel : Nat) (asst : Message)
       (results : List Message) (executed : List ExecutedToolResult) (inv : List String)
       (e : UpstreamErr),
       asst.tool_calls ≠ [] →
       processCalls env asst.tool_calls [] = .ok (results, executed, inv) →
       env.llm (req ++ [asst] ++ results) true = .error e →
       (runLoop env req (fuel + 1) asst).1 = .error e) ∧
    (∀ (env : ChatEnv A) (input : ChatInput) (asst0 : Message) (e : UpstreamErr)
       (sent : List (List Message)) (rounds : Nat),
       uTokenFalsy input.userToken = false → env.apiKey = true →
       env.llm (requestMessagesOf env input) true = .ok asst0 →
       runLoop env (requestMessagesOf env input) 5 asst0 = (.error e, sent, rounds) →
       (POST env input).1 =
         { status := e.status.getD 500, error := some e.msg, content := none }) := by
  refine ⟨?_, ?_, ?_⟩
  · intro env tc rest memo a f e res ex inv hpa hfind hfun hexec hrest
    rw [processCalls, hpa]
    simp only []
    rw [hfind]
    simp only []
    rw [hfun]
    simp only []
    rw [hexec]
    simp only []
    rw [hrest]
  · intro env req fuel asst results executed inv e htc hp hl
    rw [runLoop, if_neg htc, hp]
    simp only []
    rw [hl]
  · intro env input asst0 e sent rounds hu hk hfirst hloop
    unfold POST
    rw [if_neg (by simp [hu])]
    rw [if_neg (by simp [hk])]
    simp only []
    rw [hfirst]
    simp only []
    rw [hloop]

theorem degraded_vs_hard_failure_witness :
    processCalls failingToolEnv [failCallA] [] =
      .ok ([toolMsg "call_1" "find_content" (errorPayload "API request failed: 500")],
           [], ["find_content|q"]) ∧
    (runLoop followupFailEnv (requestMessagesOf followupFailEnv chatInputW) 5 toolCallAsst).1 =
      .error ⟨some 503, "Service Unavailable"⟩ ∧
    (POST followupFailEnv chatInputW).1 =
      { status := 503, error := some "Service Unavailable", content := none } := by
  have h := degraded_vs_hard_failure (A := String)
  refine ⟨?_, ?_, ?_⟩
  · exact h.1 failingToolEnv failCallA [] [] "q" (fun _ => .error "API request failed: 500")
      "API request failed: 500" [] [] [] rfl rfl rfl rfl rfl
  · exact h.2.1 followupFailEnv (requestMessagesOf followupFailEnv chatInputW) 4 toolCallAsst
      [toolMsg "c1" "mystery_tool" (unsupportedPayload "mystery_tool")] [] []
      ⟨some 503, "Service Unavailable"⟩ (by decide) rfl rfl
  · exact h.2.2 followupFailEnv chatInputW toolCallAsst ⟨some 503, "Service Unavailable"⟩
      [requestMessagesOf followupFailEnv chatInputW ++ [toolCallAsst] ++
        [toolMsg "c1" "mystery_tool" (unsupportedPayload "mystery_tool")]] 1 rfl rfl rfl rfl

/-! ## Claim C4 — malformed tool-call arguments -/

def badCall : ToolCallRec := { id := "c1", name := "find_content", args := "not json" }

def goodCall : ToolCallRec := { id := "c2", name := "find_content", args := "ok" }

def badArgsAsst : Message :=
  { role := .assistant, content := none, tool_calls := [badCall, goodCall] }

def parsePickyEnv : ChatEnv String :=
  { baseEnvW with
    llm := fun ms _ =>
      if ms.length ≤ 2 then .ok badArgsAsst
      else .ok { role := .assistant, content := some "done" },
    parse := fun st =>
      if st = "not json" then .error "Unexpected token o in JSON" else .ok st,
    funcs := fun n =>
      if n = "find_content" then some (fun _ => .ok (.find ⟨[]⟩)) else none }

/-- C4 counterexample: `JSON.parse` of the tool arguments (route.ts line
641) sits outside the `try` of line 645, so a call with malformed argument
JSON does not get a synthesized error tool-result — the whole round aborts
(the remaining `goodCall` is never processed) and the request fails with a
500 response. -/
theorem parse_failure_counterexample :
    processCalls parsePickyEnv [badCall, goodCall] [] =
      .error "Unexpected token o in JSON" ∧
    (POST parsePickyEnv chatInputW).1 =
      { status := 500, error := some "Unexpected token o in JSON", content := none } :=
  ⟨rfl, rfl⟩

/-- C4 (amended): a tool call whose arguments string fails to parse throws
out of the round: no error tool-result is synthesized, the remaining calls
of the round are not processed, and the exception reaches the top-level
catch, which answers the whole request with a 500 error response. -/
theorem parse_failure_aborts {A : Type} :
    (∀ (env : ChatEnv A) (tc : ToolCallRec) (rest : List ToolCallRec)
       (memo : List (String × String × String)) (e : String),
       env.parse (defaultedArgs tc.args) = .error e →
       processCalls env (tc :: rest) memo = .error e) ∧
    (∀ (env : ChatEnv A) (req : List Message) (fuel : Nat) (asst : Message) (e : String),
       asst.tool_calls ≠ [] →
       processCalls env asst.tool_calls [] = .error e →
       (runLoop env req (fuel + 1) asst).1 = .error ⟨none, e⟩) ∧
    (∀ (env : ChatEnv A) (input : ChatInput) (asst0 : Message) (msg : String)
       (sent : List (List Message)) (rounds : Nat),
       uTokenFalsy input.userToken = false → env.apiKey = true →
       env.llm (requestMessagesOf env input) true = .ok asst0 →
       runLoop env (requestMessagesOf env input) 5 asst0 = (.error ⟨none, msg⟩, sent, rounds) →
       (POST env input).1 = { status := 500, error := some msg, content := none }) := by
  refine ⟨?_, ?_, ?_⟩
  · intro env tc rest memo e hpe
    rw [processCalls, hpe]
  · intro env req fuel asst e htc hp
    rw [runLoop, if_neg htc, hp]
  · intro env input asst0 msg sent rounds hu hk hfirst hloop
    unfold POST
    rw [if_neg (by simp [hu])]
    rw [if_neg (by simp [hk])]
    simp only []
    rw [hfirst]
    simp only []
    rw [hloop]
    rfl

theorem parse_failure_aborts_witness :
    processCalls parsePickyEnv [badCall, goodCall] [] =
      .error "Unexpected token o in JSON" ∧
    (runLoop parsePickyEnv (requestMessagesOf parsePickyEnv chatInputW) 5 badArgsAsst).1 =
      .error ⟨none, "Unexpected token o in JSON"⟩ ∧
    (POST parsePickyEnv chatInputW).1 =
      { status := 500, error := some "Unexpected token o in JSON", content := none } := by
  have h := parse_failure_aborts (A := String)
  refine ⟨?_, ?_, ?_⟩
  · exact h.1 parsePickyEnv badCall [goodCall] [] "Unexpected token o in JSON" rfl
  · exact h.2.1 parsePickyEnv (requestMessagesOf parsePickyEnv chatInputW) 4 badArgsAsst
      "Unexpected token o in JSON" (by decide) (h.1 parsePickyEnv badCall [goodCall] []
        "Unexpected token o in JSON" rfl)
  · exact h.2.2 parsePickyEnv chatInputW badArgsAsst "Unexpected token o in JSON" [] 1
      rfl rfl rfl rfl

/-! ## Claim C6 — context-size bound and system-message retention -/

def smallCtxEnv : ChatEnv String :=
  { baseEnvW with maxContext := 2, llm := fun _ _ => .ok toolCallAsst }

/-- C6 counterexample: with a configured maximum of 2 the initial history
fits, but the follow-up call of the first round sends the initial history
plus the assistant message plus a tool result — 4 messages, exceeding the
maximum, because `updatedMessages` (route.ts line 689) is never re-trimmed.
Additionally, with a configured maximum of 1 the trimming of lines 583-586
keeps the system message plus one recent message — 2 messages. -/
theorem context_bound_counterexample :
    (POST smallCtxEnv chatInputW).2.sent.get? 1 =
      some [systemMessage, userMsgW, toolCallAsst,
            toolMsg "c1" "mystery_tool" (unsupportedPayload "mystery_tool")] ∧
    smallCtxEnv.maxContext = 2 ∧
    (trimContext 1 [systemMessage, userMsgW, userMsgW]).length = 2 :=
  ⟨rfl, rfl, rfl⟩

/-- C6 (amended): the trimmed initial history never exceeds the configured
maximum when that maximum is at least 2, and a leading system message is
always kept at the front; every follow-up call of the loop sends the
(trimmed) initial history extended by the assistant message and the round's
tool results — so it also keeps the leading system message, but it is not
re-trimmed and can exceed the maximum. -/
theorem context_trimming_shape {A : Type} (env : ChatEnv A) :
    (∀ (maxN : Nat) (joined : List Message), 2 ≤ maxN →
      (trimContext maxN joined).length ≤ maxN) ∧
    (∀ (maxN : Nat) (m : Message) (restJ : List Message), m.role = .system →
      ∃ restT, trimContext maxN (m :: restJ) = m :: restT) ∧
    (∀ (req : List Message) (fuel : Nat) (asst : Message),
      ∀ l ∈ (runLoop env req fuel asst).2.1, ∃ suffix, l = req ++ suffix) := by
  refine ⟨?_, ?_, ?_⟩
  · intro maxN joined h2
    unfold trimContext
    by_cases hle : joined.length ≤ maxN
    · rw [if_pos hle]; exact hle
    · rw [if_neg hle]
      push_neg at hle
      cases joined with
      | nil => simp at hle
      | cons m rest =>
        simp only []
        by_cases hs : m.role = .system
        · rw [if_pos hs]
          simp only [List.length_append, List.length_drop, List.length_cons,
            List.length_nil, List.length_singleton]
          simp only [List.length_cons] at hle
          rw [Nat.max_def]
          split <;> omega
        · rw [if_neg hs]
          simp only [List.nil_append, List.length_drop, List.length_nil, List.length_cons]
          simp only [List.length_cons] at hle
          rw [Nat.max_def]
          split <;> omega
  · intro maxN m restJ hs
    unfold trimContext
    by_cases hle : (m :: restJ).length ≤ maxN
    · rw [if_pos hle]; exact ⟨restJ, rfl⟩
    · rw [if_neg hle]
      simp only []
      rw [if_pos hs]
      exact ⟨_, rfl⟩
  · intro req fuel
    induction fuel with
    | zero => intro asst l hl; simp [runLoop] at hl
    | succ fuel ih =>
      intro asst l hl
      by_cases h1 : asst.tool_calls = []
      · simp [runLoop, h1] at hl
      · rw [runLoop, if_neg h1] at hl
        cases hp : processCalls env asst.tool_calls [] with
        | error e => rw [hp] at hl; simp at hl
        | ok t =>
          obtain ⟨results, executed, inv⟩ := t
          rw [hp] at hl
          simp only [] at hl
          cases hf : env.llm (req ++ [asst] ++ results) true with
          | error e =>
            rw [hf] at hl
            simp only [List.mem_singleton] at hl
            exact ⟨[asst] ++ results, by rw [hl, List.append_assoc]⟩
          | ok asst2 =>
            rw [hf] at hl
            simp only [] at hl
            by_cases h2 : (contentFalsy asst2.content && decide (asst2.tool_calls = [])) = true
            · rw [if_pos h2] at hl
              cases hft : env.llm (req ++ [asst] ++ results) false with
              | error e =>
                rw [hft] at hl
                simp only [List.mem_cons, List.mem_singleton, List.not_mem_nil] at hl
                rcases hl with hl | hl | hl
                · exact ⟨[asst] ++ results, by rw [hl, List.append_assoc]⟩
                · exact ⟨[asst] ++ results, by rw [hl, List.append_assoc]⟩
                · cases hl
              | ok asst3 =>
                rw [hft] at hl
                simp only [List.mem_cons, List.mem_singleton, List.not_mem_nil] at hl
                rcases hl with hl | hl | hl
                · exact ⟨[asst] ++ results, by rw [hl, List.append_assoc]⟩
                · exact ⟨[asst] ++ results, by rw [hl, List.append_assoc]⟩
                · cases hl
            · rw [if_neg h2] at hl
              rcases hr : runLoop env req fuel asst2 with ⟨r, sent2, n⟩
              rw [hr] at hl
              have hmem : l ∈ (req ++ [asst] ++ results) :: sent2 := by
                cases r with
                | error e => simpa using hl
                | ok p => obtain ⟨mm, ex⟩ := p; simpa using hl
              rcases List.mem_cons.mp hmem with hl2 | hl2
              · exact ⟨[asst] ++ results, by rw [hl2, List.append_assoc]⟩
              · have := ih asst2 l (by rw [hr]; exact hl2)
                exact this

theorem context_trimming_shape_witness :
    (trimContext 2 [systemMessage, userMsgW, userMsgW, userMsgW]).length ≤ 2 ∧
    (∃ restT, trimContext 2 (systemMessage :: [userMsgW, userMsgW, userMsgW]) =
      systemMessage :: restT) ∧
    (∃ suffix,
      [systemMessage, userMsgW, toolCallAsst,
       toolMsg "c1" "mystery_tool" (unsupportedPayload "mystery_tool")] =
        [systemMessage, userMsgW] ++ suffix) := by
  have h := context_trimming_shape (A := String) smallCtxEnv
  exact ⟨h.1 2 [systemMessage, userMsgW, userMsgW, userMsgW] (by decide),
    h.2.1 2 systemMessage [userMsgW, userMsgW, userMsgW] rfl,
    h.2.2 [systemMessage, userMsgW] 5 toolCallAsst
      [systemMessage, userMsgW, toolCallAsst,
       toolMsg "c1" "mystery_tool" (unsupportedPayload "mystery_tool")] (by decide)⟩

/-! ## Claim C7 — positional placeholder-link rewriting -/

theorem takeWhile_append_stop {α : Type} (p : α → Bool) (a b : List α) (x : α)
    (ha : ∀ c ∈ a, p c = true) (hx : p x = false) :
    (a ++ x :: b).takeWhile p = a := by
  induction a with
  | nil => simp [List.takeWhile_cons, hx]
  | cons c a ih =>
    have hc := ha c (List.mem_cons_self _ _)
    simp [List.takeWhile_cons, hc, ih (fun d hd => ha d (List.mem_cons_of_mem _ hd))]

theorem dropWhile_append_stop {α : Type} (p : α → Bool) (a b : List α) (x : α)
    (ha : ∀ c ∈ a, p c = true) (hx : p x = false) :
    (a ++ x :: b).dropWhile p = x :: b := by
  induction a with
  | nil => simp [List.dropWhile_cons, hx]
  | cons c a ih =>
    have hc := ha c (List.mem_cons_self _ _)
    simp [List.dropWhile_cons, hc, ih (fun d hd => ha d (List.mem_cons_of_mem _ hd))]

theorem phMatch_ne (c : Char) (cs : List Char) (h : c ≠ '[') : phMatch (c :: cs) = none := by
  simp [phMatch, h]

theorem phMatch_hit (lab rest : List Char) (hne : lab ≠ []) (hnb : ∀ c ∈ lab, c ≠ ']') :
    phMatch ('[' :: (lab ++ (']' :: '(' :: '#' :: ')' :: rest))) = some (lab, rest) := by
  have ht : (lab ++ (']' :: '(' :: '#' :: ')' :: rest)).takeWhile (fun x => x ≠ ']') = lab :=
    takeWhile_append_stop _ _ _ _ (fun c hc => by simpa using hnb c hc) (by decide)
  have hd : (lab ++ (']' :: '(' :: '#' :: ')' :: rest)).dropWhile (fun x => x ≠ ']') =
      ']' :: '(' :: '#' :: ')' :: rest :=
    dropWhile_append_stop _ _ _ _ (fun c hc => by simpa using hnb c hc) (by decide)
  simp only [phMatch, if_pos rfl, ht, hd]
  simp [hne]

theorem phGo_nil (fuel : Nat) (links : List (List Char)) : phGo fuel links [] = [] := by
  cases fuel <;> rfl

/-- Characters other than `[` pass through the placeholder scan. -/
theorem phGo_append_pass (a b : List Char) (ha : ∀ c ∈ a, c ≠ '[') :
    ∀ (fuel : Nat) (links : List (List Char)), a.length ≤ fuel →
      phGo fuel links (a ++ b) = a ++ phGo (fuel - a.length) links b := by
  induction a with
  | nil => intro fuel links _; simp
  | cons c a ih =>
    intro fuel links hfuel
    match fuel, hfuel with
    | fuel + 1, hfuel =>
      have hc : c ≠ '[' := ha c (List.mem_cons_self _ _)
      rw [List.cons_append]
      show phGo (fuel + 1) links (c :: (a ++ b)) = _
      rw [phGo, phMatch_ne c _ hc]
      simp only []
      rw [ih (fun x hx => ha x (List.mem_cons_of_mem _ hx)) fuel links (by simpa using hfuel)]
      simp [Nat.succ_sub_succ]

/-- A text without `[` is left unchanged by the placeholder scan. -/
theorem phGo_id (l : List Char) (hl : ∀ c ∈ l, c ≠ '[') :
    ∀ (fuel : Nat) (links : List (List Char)), phGo fuel links l = l := by
  induction l with
  | nil => intro fuel links; exact phGo_nil _ _
  | cons c cs ih =>
    intro fuel links
    match fuel with
    | 0 => rfl
    | fuel + 1 =>
      rw [phGo, phMatch_ne c _ (hl c (List.mem_cons_self _ _))]
      simp only []
      rw [ih (fun x hx => hl x (List.mem_cons_of_mem _ hx)) fuel links]

/-- The shape `seg₀ ⟨label₀⟩ seg₁ ⟨label₁⟩ … last` used to state the claim:
each chunk contributes its segment and a placeholder link `[label](#)`. -/
def placeholderC (lab : List Char) : List Char := '[' :: lab ++ [']', '(', '#', ')']

def linkedC (lab url : List Char) : List Char := '[' :: lab ++ [']', '('] ++ url ++ [')']

def interleaveC : List (List Char × List Char) → List Char → List Char
  | [], last => last
  | (seg, lab) :: r, last => seg ++ placeholderC lab ++ interleaveC r last

/-- The claim's expected output: the Nth placeholder takes the Nth link;
when the links run out the remaining placeholders stay unchanged. -/
def substC : List (List Char × List Char) → List (List Char) → List Char → List Char
  | [], _, last => last
  | (seg, lab) :: r, [], last => seg ++ placeholderC lab ++ substC r [] last
  | (seg, lab) :: r, url :: urls, last => seg ++ linkedC lab url ++ substC r urls last

theorem phGo_chunks :
    ∀ (chunks : List (List Char × List Char)) (last : List Char)
      (links : List (List Char)) (fuel : Nat),
      (∀ p ∈ chunks, ∀ c ∈ p.1, c ≠ '[') →
      (∀ c ∈ last, c ≠ '[') →
      (∀ p ∈ chunks, p.2 ≠ [] ∧ ∀ c ∈ p.2, c ≠ ']') →
      (interleaveC chunks last).length ≤ fuel →
      phGo fuel links (interleaveC chunks last) = substC chunks links last := by
  intro chunks
  induction chunks with
  | nil =>
    intro last links fuel _ hlast _ _
    exact phGo_id last hlast fuel links
  | cons p r ih =>
    obtain ⟨seg, lab⟩ := p
    intro last links fuel hseg hlast hlab hfuel
    have hseg0 : ∀ c ∈ seg, c ≠ '[' := hseg (seg, lab) (List.mem_cons_self _ _)
    have hlab0 := hlab (seg, lab) (List.mem_cons_self _ _)
    have hsegr : ∀ p ∈ r, ∀ c ∈ p.1, c ≠ '[' := fun p hp => hseg p (List.mem_cons_of_mem _ hp)
    have hlabr : ∀ p ∈ r, p.2 ≠ [] ∧ ∀ c ∈ p.2, c ≠ ']' :=
      fun p hp => hlab p (List.mem_cons_of_mem _ hp)
    have hlen : (interleaveC ((seg, lab) :: r) last).length =
        seg.length + (lab.length + 5) + (interleaveC r last).length := by
      simp [interleaveC, placeholderC, List.length_append]
      omega
    rw [interleaveC, List.append_assoc]
    rw [phGo_append_pass seg _ hseg0 fuel links (by omega)]
    have hshape : placeholderC lab ++ interleaveC r last =
        '[' :: (lab ++ (']' :: '(' :: '#' :: ')' :: interleaveC r last)) := by
      simp [placeholderC]
    rw [hshape]
    obtain ⟨fuel2, hfuel2⟩ : ∃ f2, fuel - seg.length = f2 + 1 :=
      ⟨fuel - seg.length - 1, by omega⟩
    rw [hfuel2, phGo, phMatch_hit lab _ hlab0.1 hlab0.2]
    simp only []
    cases links with
    | nil =>
      simp only []
      rw [ih last [] fuel2 hsegr hlast hlabr (by omega)]
      simp [substC, placeholderC]
    | cons url more =>
      simp only []
      rw [ih last more fuel2 hsegr hlast hlabr (by omega)]
      simp [substC, linkedC]

/-- Claim-shape helper: text made of segments and placeholder links. -/
def placeholderText (label : String) : String := "[" ++ label ++ "](#)"

def linkedText (label url : String) : String := "[" ++ label ++ "](" ++ url ++ ")"

def interleaveChunks : List (String × String) → String → String
  | [], last => last
  | (seg, label) :: r, last => seg ++ placeholderText label ++ interleaveChunks r last

def substChunks : List (String × String) → List String → String → String
  | [], _, last => last
  | (seg, label) :: r, [], last => seg ++ placeholderText label ++ substChunks r [] last
  | (seg, label) :: r, url :: urls, last => seg ++ linkedText label url ++ substChunks r urls last

theorem interleaveChunks_data (chunks : List (String × String)) (last : String) :
    (interleaveChunks chunks last).data =
      interleaveC (chunks.map (fun p => (p.1.data, p.2.data))) last.data := by
  induction chunks with
  | nil => rfl
  | cons p r ih =>
    obtain ⟨seg, lab⟩ := p
    simp only [interleaveChunks, interleaveC, List.map_cons, String.data_append, ih,
      placeholderText, placeholderC]
    simp

theorem substChunks_data (chunks : List (String × String)) :
    ∀ (links : List String) (last : String),
      (substChunks chunks links last).data =
        substC (chunks.map (fun p => (p.1.data, p.2.data))) (links.map String.data) last.data := by
  induction chunks with
  | nil => intro links last; cases links <;> rfl
  | cons p r ih =>
    obtain ⟨seg, lab⟩ := p
    intro links last
    cases links with
    | nil =>
      simp only [substChunks, substC, List.map_cons, List.map_nil, String.data_append,
        ih [] last, placeholderText, placeholderC]
      simp
    | cons url urls =>
      simp only [substChunks, substC, List.map_cons, String.data_append,
        ih urls last, linkedText, linkedC]
      simp

theorem substChunks_no_links (chunks : List (String × String)) (last : String) :
    substChunks chunks [] last = interleaveChunks chunks last := by
  induction chunks with
  | nil => rfl
  | cons p r ih => obtain ⟨seg, lab⟩ := p; simp [substChunks, interleaveChunks, ih]

/-- C7: in the final content, placeholder links `[label](#)` are rewritten
positionally — the Nth placeholder takes the Nth link collected, in order,
from executed `find_content` results; extra placeholders beyond the
collected links are left unchanged, and with no collected links any text is
returned unchanged. -/
theorem placeholder_rewrite_positional
    (chunks : List (String × String)) (last : String) (toolResults : List ExecutedToolResult)
    (hseg : ∀ p ∈ chunks, '[' ∉ p.1.data)
    (hlast : '[' ∉ last.data)
    (hlab : ∀ p ∈ chunks, p.2.data ≠ [] ∧ ']' ∉ p.2.data) :
    replacePlaceholderLinksWithToolUrls (interleaveChunks chunks last) toolResults =
      substChunks chunks (collectToolLinks toolResults) last ∧
    (∀ text : String, collectToolLinks toolResults = [] →
      replacePlaceholderLinksWithToolUrls text toolResults = text) := by
  constructor
  · unfold replacePlaceholderLinksWithToolUrls
    by_cases ht : interleaveChunks chunks last = ""
    · rw [if_pos ht]
      have hd : (interleaveChunks chunks last).data = [] := by rw [ht]
      rw [interleaveChunks_data] at hd
      cases chunks with
      | nil => rfl
      | cons p r =>
        exfalso
        obtain ⟨seg, lab⟩ := p
        simp [interleaveC, placeholderC] at hd
    · rw [if_neg ht]
      by_cases hl : collectToolLinks toolResults = []
      · rw [if_pos hl, hl, substChunks_no_links]
      · rw [if_neg hl]
        have hsegC : ∀ p ∈ chunks.map (fun p => (p.1.data, p.2.data)), ∀ c ∈ p.1, c ≠ '[' := by
          intro p hp c hc
          obtain ⟨q, hq, rfl⟩ := List.mem_map.mp hp
          intro hceq
          exact hseg q hq (hceq ▸ hc)
        have hlabC : ∀ p ∈ chunks.map (fun p => (p.1.data, p.2.data)),
            p.2 ≠ [] ∧ ∀ c ∈ p.2, c ≠ ']' := by
          intro p hp
          obtain ⟨q, hq, rfl⟩ := List.mem_map.mp hp
          refine ⟨(hlab q hq).1, fun c hc hceq => (hlab q hq).2 (hceq ▸ hc)⟩
        have hlastC : ∀ c ∈ last.data, c ≠ '[' := fun c hc hceq => hlast (hceq ▸ hc)
        have hmain := phGo_chunks (chunks.map (fun p => (p.1.data, p.2.data))) last.data
          ((collectToolLinks toolResults).map String.data)
          (interleaveC (chunks.map (fun p => (p.1.data, p.2.data))) last.data).length
          hsegC hlastC hlabC (Nat.le_refl _)
        show String.mk _ = _
        rw [interleaveChunks_data, hmain, ← substChunks_data]
  · intro text hnil
    unfold replacePlaceholderLinksWithToolUrls
    by_cases ht : text = ""
    · rw [if_pos ht]
    · rw [if_neg ht, if_pos hnil]

def linkItemW : FindItem :=
  { title := "Bikes", type := "idea", id := some "1",
    link := some "http://n.example/posts/1" }

def executedW : List ExecutedToolResult := [⟨"find_content", .find ⟨[linkItemW]⟩⟩]

theorem placeholder_rewrite_positional_witness :
    replacePlaceholderLinksWithToolUrls
        (interleaveChunks [("see ", "Bikes"), ("ical and ", "More")] ".") executedW =
      substChunks [("see ", "Bikes"), ("ical and ", "More")]
        (collectToolLinks executedW) "." ∧
    substChunks [("see ", "Bikes"), ("ical and ", "More")] (collectToolLinks executedW) "." =
      "see [Bikes](http://n.example/posts/1)ical and [More](#)." :=
  ⟨(placeholder_rewrite_positional [("see ", "Bikes"), ("ical and ", "More")] "." executedW
      (by decide) (by decide) (by decide)).1, by rfl⟩

/-! ## Claim C10 — plain-text / rich-HTML round trip: string infrastructure -/

theorem dropWhile_head_not {α : Type} (p : α → Bool) :
    ∀ (l : List α) (h : α) (t : List α), l.dropWhile p = h :: t → p h = false := by
  intro l
  induction l with
  | nil => intro h t he; cases he
  | cons c cs ih =>
    intro h t he
    rw [List.dropWhile_cons] at he
    by_cases hc : p c = true
    · rw [if_pos hc] at he; exact ih h t he
    · rw [if_neg hc] at he
      injection he with h1 _
      rw [← h1]
      exact Bool.eq_false_iff.mpr hc

theorem dropWhile_append_all {α : Type} (p : α → Bool) (a b : List α)
    (ha : ∀ c ∈ a, p c = true) : (a ++ b).dropWhile p = b.dropWhile p := by
  induction a with
  | nil => simp
  | cons c a ih =>
    rw [List.cons_append, List.dropWhile_cons, if_pos (ha c (List.mem_cons_self _ _))]
    exact ih (fun d hd => ha d (List.mem_cons_of_mem _ hd))

theorem dropWhile_append_ne {α : Type} (p : α → Bool) (a b : List α)
    (ha : a.dropWhile p ≠ []) : (a ++ b).dropWhile p = a.dropWhile p ++ b := by
  induction a with
  | nil => simp at ha
  | cons c a ih =>
    simp only [List.cons_append, List.dropWhile_cons]
    rw [List.dropWhile_cons] at ha
    by_cases hc : p c = true
    · rw [if_pos hc, if_pos hc]
      rw [if_pos hc] at ha
      exact ih ha
    · rw [if_neg hc, if_neg hc]
      simp

theorem trimEndC_decomp (x : List Char) :
    ∃ t, x = trimEndC x ++ t ∧ ∀ c ∈ t, jsWs c = true := by
  refine ⟨(x.reverse.takeWhile jsWs).reverse, ?_, ?_⟩
  · unfold trimEndC
    conv_lhs => rw [← List.reverse_reverse x]
    rw [← List.reverse_append]
    rw [List.takeWhile_append_dropWhile]
  · intro c hc
    rw [List.mem_reverse] at hc
    exact List.mem_takeWhile_imp hc

theorem trimEndC_append_ws_list (y t : List Char) (ht : ∀ c ∈ t, jsWs c = true) :
    trimEndC (y ++ t) = trimEndC y := by
  unfold trimEndC
  rw [List.reverse_append, dropWhile_append_all _ _ _ (fun c hc => ht c (List.mem_reverse.mp hc))]

theorem trimEndC_ends_hard (x : List Char) (hne : trimEndC x ≠ []) :
    ∃ y c, trimEndC x = y ++ [c] ∧ jsWs c = false := by
  unfold trimEndC at hne ⊢
  rcases hr : x.reverse.dropWhile jsWs with _ | ⟨h, t⟩
  · rw [hr] at hne; simp at hne
  · refine ⟨t.reverse, h, by simp, dropWhile_head_not jsWs x.reverse h t hr⟩

theorem trimEndC_idem (x : List Char) : trimEndC (trimEndC x) = trimEndC x := by
  by_cases hne : trimEndC x = []
  · rw [hne]; rfl
  · obtain ⟨y, c, heq, hc⟩ := trimEndC_ends_hard x hne
    rw [heq]
    unfold trimEndC
    rw [List.reverse_append, List.reverse_singleton, List.singleton_append,
      List.dropWhile_cons, if_neg (by simp [hc])]
    simp

theorem mem_trimEndC (x : List Char) (c : Char) (hc : c ∈ trimEndC x) : c ∈ x := by
  obtain ⟨t, hx, _⟩ := trimEndC_decomp x
  rw [hx]
  exact List.mem_append_left _ hc

theorem trimC_append_ws_list (y t : List Char) (ht : ∀ c ∈ t, jsWs c = true) :
    trimC (y ++ t) = trimC y := by
  unfold trimC
  by_cases hy : y.dropWhile jsWs = []
  · have hall : ∀ c ∈ y, jsWs c = true := (List.dropWhile_eq_nil_iff).mp hy
    rw [hy, dropWhile_append_all _ _ _ hall, List.dropWhile_eq_nil_iff.mpr ht]
  · rw [dropWhile_append_ne _ _ _ hy, trimEndC_append_ws_list _ _ ht]

theorem trimC_trimEndC (x : List Char) : trimC (trimEndC x) = trimC x := by
  obtain ⟨t, hx, ht⟩ := trimEndC_decomp x
  conv_rhs => rw [hx]
  rw [trimC_append_ws_list _ _ ht]

theorem trimC_cons_ws (c : Char) (x : List Char) (hc : jsWs c = true) :
    trimC (c :: x) = trimC x := by
  unfold trimC
  rw [List.dropWhile_cons, if_pos hc]

theorem occursC_of_suffix (pat : List Char) :
    ∀ (l u : List Char), u <:+ l → pat.isPrefixOf u = true → occursC pat l = true := by
  intro l
  induction l with
  | nil =>
    intro u hu hp
    rw [List.suffix_nil.mp hu] at hp
    simpa [occursC] using hp
  | cons c cs ih =>
    intro u hu hp
    rcases List.suffix_cons_iff.mp hu with rfl | hu2
    · simp [occursC, hp]
    · simp [occursC, ih u hu2 hp]

theorem occursC_append_left (pat a t : List Char) (h : occursC pat a = true) :
    occursC pat (a ++ t) = true := by
  induction a with
  | nil =>
    simp only [occursC] at h
    have : pat = [] := by
      cases pat with
      | nil => rfl
      | cons p ps => simp [List.isPrefixOf] at h
    subst this
    cases t <;> simp [occursC, List.isPrefixOf]
  | cons c cs ih =>
    simp only [occursC, Bool.or_eq_true] at h ⊢
    rcases h with h | h
    · left
      have := List.isPrefixOf_iff_prefix.mp h
      exact List.isPrefixOf_iff_prefix.mpr (by simpa using this.trans (List.prefix_append _ t))
    · right
      exact ih h

/-- A scan whose trigger character does not occur is the identity (the
matcher is never even consulted). -/
theorem scanWith_no_trigger (trigger : Char) (matcher : List Char → Option (List Char × List Char))
    (l : List Char) (h : ∀ c ∈ l, c ≠ trigger) :
    ∀ fuel, scanWith trigger matcher fuel l = l := by
  induction l with
  | nil => intro fuel; exact scanWith_nil _ _ _
  | cons c cs ih =>
    intro fuel
    match fuel with
    | 0 => rfl
    | fuel + 1 =>
      rw [scanWith_step_pass _ _ _ _ _ (h c (List.mem_cons_self _ _)),
        ih (fun x hx => h x (List.mem_cons_of_mem _ hx)) fuel]

theorem replaceAllC_head_id (p : Char) (ps repl l : List Char) (h : p ∉ l) :
    replaceAllC (p :: ps) repl l = l := by
  unfold replaceAllC
  exact scanWith_no_trigger p _ l (fun c hc hce => h (hce ▸ hc)) l.length

theorem escC_id (l : List Char) (h : ∀ c ∈ l, c ≠ '&' ∧ c ≠ '<' ∧ c ≠ '>') : escC l = l := by
  unfold escC
  rw [replaceAllC_head_id _ _ _ _ (fun hc => ((h _ hc).1 rfl)),
    replaceAllC_head_id _ _ _ _ (fun hc => ((h _ hc).2.1 rfl)),
    replaceAllC_head_id _ _ _ _ (fun hc => ((h _ hc).2.2 rfl))]

theorem urlMatch_none (u : List Char)
    (h1 : "http://".data.isPrefixOf u = false)
    (h2 : "https://".data.isPrefixOf u = false) : urlMatch u = none := by
  simp [urlMatch, schemeLen, h1, h2]

theorem fmtInlineC_id (l : List Char) (hstar : ∀ c ∈ l, c ≠ '*')
    (hu1 : occursC "http://".data l = false) (hu2 : occursC "https://".data l = false) :
    fmtInlineC l = l := by
  unfold fmtInlineC
  simp only []
  rw [scanWith_no_trigger '*' boldMatch l hstar]
  rw [scanWith_no_trigger '*' italicMatch l hstar]
  refine scanWith_id 'h' urlMatch l (fun u hu => ?_) _
  refine urlMatch_none u ?_ ?_
  · by_contra hb
    rw [Bool.not_eq_false] at hb
    rw [occursC_of_suffix _ l u hu hb] at hu1
    cases hu1
  · by_contra hb
    rw [Bool.not_eq_false] at hb
    rw [occursC_of_suffix _ l u hu hb] at hu2
    cases hu2

theorem splitNlC_ne_nil : ∀ l : List Char, splitNlC l ≠ [] := by
  intro l
  induction l with
  | nil => simp [splitNlC]
  | cons c cs ih =>
    rw [splitNlC]
    rcases h : splitNlC cs with _ | ⟨hh, t⟩
    · simp
    · by_cases hc : c = '\n' <;> simp [hc]

theorem splitNlC_no_nl (l : List Char) (h : '\n' ∉ l) : splitNlC l = [l] := by
  induction l with
  | nil => rfl
  | cons c cs ih =>
    have hc : c ≠ '\n' := fun he => h (he ▸ List.mem_cons_self _ _)
    rw [splitNlC, ih (fun hm => h (List.mem_cons_of_mem _ hm))]
    simp [hc]

theorem splitNlC_append_nl (l : List Char) (h : '\n' ∉ l) :
    splitNlC (l ++ ['\n']) = [l, []] := by
  induction l with
  | nil => rfl
  | cons c cs ih =>
    have hc : c ≠ '\n' := fun he => h (he ▸ List.mem_cons_self _ _)
    rw [List.cons_append, splitNlC, ih (fun hm => h (List.mem_cons_of_mem _ hm))]
    simp [hc]

theorem trimLinesC_wrap (line : List Char) (hnl : '\n' ∉ line)
    (hidem : trimEndC line = line) :
    trimLinesC ('\n' :: (line ++ "\n".data)) = '\n' :: (line ++ "\n".data) := by
  unfold trimLinesC
  have h1 : splitNlC ('\n' :: (line ++ "\n".data)) = [] :: splitNlC (line ++ "\n".data) := by
    rw [splitNlC]
    rcases hsp : splitNlC (line ++ "\n".data) with _ | ⟨hh, t⟩
    · exact absurd hsp (splitNlC_ne_nil _)
    · simp
  have h2 : splitNlC (line ++ "\n".data) = [line, []] := splitNlC_append_nl line hnl
  rw [h1, h2]
  simp only [List.map_cons, List.map_nil, hidem]
  rw [show trimEndC ([] : List Char) = [] from rfl]
  show List.intercalate ['\n'] [[], line, []] = '\n' :: (line ++ ['\n'])
  simp [List.intercalate]

/-! ### Evaluation of the tag matchers at the paragraph markup -/

theorem brMatch_p (rest : List Char) : brMatch ('<' :: 'p' :: rest) = none := by
  have h1 : jsWs 'p' = false := by decide
  have hbr : ("br".data : List Char) = ['b', 'r'] := rfl
  have h2 : ¬ ('p'.toLower = 'b') := by decide
  simp [brMatch, hbr, ciPrefixDrop, List.dropWhile_cons, h1, h2]

theorem closeTagMatch_p (rest : List Char) : closeTagMatch ('<' :: 'p' :: rest) = none := by
  have h1 : jsWs 'p' = false := by decide
  simp [closeTagMatch, List.dropWhile_cons, h1]

theorem openTagMatch_p (rest : List Char) :
    openTagMatch ('<' :: 'p' :: '>' :: rest) = some ("\n".data, rest) := by
  have h1 : jsWs 'p' = false := by decide
  have h2 : ('p'.toLower = 'p') := by decide
  have hp : ("p".data : List Char) = ['p'] := rfl
  have h3 : (decide ¬('>' ≠ '>')) = true := by decide
  simp [openTagMatch, tagAlternatives, anyTagDrop, hp, ciPrefixDrop,
    List.dropWhile_cons, h1, h2]

theorem nlRunMatch_single (c0 : Char) (rest : List Char) (hc0 : c0 ≠ '\n') :
    nlRunMatch ('\n' :: c0 :: rest) = none := by
  have h1 : (decide (c0 = '\n')) = false := by simp [hc0]
  simp [nlRunMatch, List.takeWhile_cons, h1]

/-! ### The four scan stages on `<p>line</p>` -/

theorem stage1_para (line : List Char) (hlt : ∀ c ∈ line, c ≠ '<') :
    scanWith '<' brMatch (line.length + 7) ('<' :: 'p' :: '>' :: (line ++ "</p>".data)) =
      '<' :: 'p' :: '>' :: (line ++ "</p>".data) := by
  rw [show line.length + 7 = (line.length + 6) + 1 from rfl,
    scanWith_step_none _ _ _ _ (brMatch_p _),
    show line.length + 6 = (line.length + 5) + 1 from rfl,
    scanWith_step_pass _ _ _ 'p' _ (by decide),
    show line.length + 5 = (line.length + 4) + 1 from rfl,
    scanWith_step_pass _ _ _ '>' _ (by decide),
    scanWith_append_pass '<' brMatch line _ hlt (line.length + 4) (by omega),
    show line.length + 4 - line.length = 4 by omega,
    show scanWith '<' brMatch 4 "</p>".data = "</p>".data by decide]

theorem stage2_para (line : List Char) (hlt : ∀ c ∈ line, c ≠ '<') :
    scanWith '<' closeTagMatch (line.length + 7) ('<' :: 'p' :: '>' :: (line ++ "</p>".data)) =
      '<' :: 'p' :: '>' :: (line ++ "\n".data) := by
  rw [show line.length + 7 = (line.length + 6) + 1 from rfl,
    scanWith_step_none _ _ _ _ (closeTagMatch_p _),
    show line.length + 6 = (line.length + 5) + 1 from rfl,
    scanWith_step_pass _ _ _ 'p' _ (by decide),
    show line.length + 5 = (line.length + 4) + 1 from rfl,
    scanWith_step_pass _ _ _ '>' _ (by decide),
    scanWith_append_pass '<' closeTagMatch line _ hlt (line.length + 4) (by omega),
    show line.length + 4 - line.length = 4 by omega,
    show scanWith '<' closeTagMatch 4 "</p>".data = "\n".data by decide]

theorem stage3_para (line : List Char) (hlt : ∀ c ∈ line, c ≠ '<') :
    scanWith '<' openTagMatch (line.length + 4) ('<' :: 'p' :: '>' :: (line ++ "\n".data)) =
      '\n' :: (line ++ "\n".data) := by
  rw [show line.length + 4 = (line.length + 3) + 1 from rfl,
    scanWith_step_match _ _ _ _ _ _ (openTagMatch_p (line ++ "\n".data)),
    scanWith_append_pass '<' openTagMatch line _ hlt (line.length + 3) (by omega),
    show line.length + 3 - line.length = 3 by omega,
    show scanWith '<' openTagMatch 3 "\n".data = "\n".data by decide]
  rfl

theorem stage7_para (line : List Char) (c0 : Char) (line2 : List Char)
    (hdec : line = c0 :: line2) (hc0 : c0 ≠ '\n') (hnl : ∀ c ∈ line, c ≠ '\n') :
    scanWith '\n' nlRunMatch (line.length + 2) ('\n' :: (line ++ "\n".data)) =
      '\n' :: (line ++ "\n".data) := by
  have hm : nlRunMatch ('\n' :: (line ++ "\n".data)) = none := by
    rw [hdec, List.cons_append]
    exact nlRunMatch_single c0 _ hc0
  rw [show line.length + 2 = (line.length + 1) + 1 from rfl,
    scanWith_step_none _ _ _ _ hm,
    scanWith_append_pass '\n' nlRunMatch line _ hnl (line.length + 1) (by omega),
    show line.length + 1 - line.length = 1 by omega,
    show scanWith '\n' nlRunMatch 1 "\n".data = "\n".data by decide]

theorem decodeEntitiesC_id (l : List Char) (h : '&' ∉ l) : decodeEntitiesC l = l := by
  unfold decodeEntitiesC
  rw [show ("&nbsp;".data : List Char) = '&' :: "nbsp;".data from rfl,
    replaceAllC_head_id _ _ _ _ h,
    show ("&amp;".data : List Char) = '&' :: "amp;".data from rfl,
    replaceAllC_head_id _ _ _ _ h,
    show ("&lt;".data : List Char) = '&' :: "lt;".data from rfl,
    replaceAllC_head_id _ _ _ _ h,
    show ("&gt;".data : List Char) = '&' :: "gt;".data from rfl,
    replaceAllC_head_id _ _ _ _ h,
    show ("&quot;".data : List Char) = '&' :: "quot;".data from rfl,
    replaceAllC_head_id _ _ _ _ h,
    show ("&#39;".data : List Char) = '&' :: "#39;".data from rfl,
    replaceAllC_head_id _ _ _ _ h]

theorem toRichHtmlC_blank (x : List Char) (hnl : '\n' ∉ x)
    (hb : trimC (trimEndC x) = []) : toRichHtmlC x = [] := by
  unfold toRichHtmlC
  simp only []
  rw [replaceAllC_pair_id _ _ _ _ hnl, splitNlC_no_nl _ hnl]
  simp only [List.foldl]
  unfold richLineStep
  simp only []
  rw [if_pos hb]
  rfl

theorem toRichHtmlC_para (x : List Char) (hnl : '\n' ∉ x)
    (hb : trimC (trimEndC x) ≠ [])
    (hh3 : headingBody "###".data (trimEndC x) = none)
    (hh2 : headingBody "##".data (trimEndC x) = none)
    (hh1 : headingBody "#".data (trimEndC x) = none)
    (hli : listItemBody (trimEndC x) = none) :
    toRichHtmlC x = "<p>".data ++ fmtInlineC (escC (trimEndC x)) ++ "</p>".data := by
  unfold toRichHtmlC
  simp only []
  rw [replaceAllC_pair_id _ _ _ _ hnl, splitNlC_no_nl _ hnl]
  simp only [List.foldl]
  unfold richLineStep
  simp only []
  rw [if_neg hb, hh3]
  simp only []
  rw [hh2]
  simp only []
  rw [hh1]
  simp only []
  rw [hli]
  simp only []
  show List.intercalate ['\n']
      (flushListC (flushListC [] [] ++
        ["<p>".data ++ fmtInlineC (escC (trimEndC x)) ++ "</p>".data]) []) = _
  rw [show flushListC [] [] = [] from rfl, List.nil_append,
    show ∀ p : List Char, flushListC [p] [] = [p] from fun p => rfl]
  simp [List.intercalate]

/-- C10 (amended): for a single-line input without `&`, `<`, `>` or `*`
characters and without a URL scheme, whose right-trimmed form the converter
classifies neither as a heading (`#`/`##`/`###` followed by whitespace and
a body — the source regex accepts any whitespace, not only a space) nor as
a list item (`-`/`*` followed by whitespace and a body), converting to rich
HTML and back to plain text recovers the input up to trimming. -/
theorem plaintext_richhtml_roundtrip (s : String)
    (hnl : '\n' ∉ s.data)
    (hchars : ∀ c ∈ s.data, c ≠ '&' ∧ c ≠ '<' ∧ c ≠ '>' ∧ c ≠ '*')
    (hurl1 : occursC "http://".data s.data = false)
    (hurl2 : occursC "https://".data s.data = false)
    (hh3 : headingBody "###".data (trimEndC s.data) = none)
    (hh2 : headingBody "##".data (trimEndC s.data) = none)
    (hh1 : headingBody "#".data (trimEndC s.data) = none)
    (hli : listItemBody (trimEndC s.data) = none) :
    htmlToPlainText (toRichHtml s) = ⟨trimC s.data⟩ := by
  have hsub : ∀ c ∈ trimEndC s.data, c ∈ s.data := fun c hc => mem_trimEndC _ _ hc
  by_cases hb : trimC (trimEndC s.data) = []
  · show String.mk (htmlToPlainTextC (toRichHtmlC s.data)) = _
    rw [toRichHtmlC_blank s.data hnl hb,
      show htmlToPlainTextC [] = [] from rfl,
      show trimC s.data = [] from by rw [← trimC_trimEndC]; exact hb]
  · set line := trimEndC s.data with hlinedef
    have hlchars : ∀ c ∈ line, c ≠ '&' ∧ c ≠ '<' ∧ c ≠ '>' ∧ c ≠ '*' :=
      fun c hc => hchars c (hsub c hc)
    have hlnl : ∀ c ∈ line, c ≠ '\n' := fun c hc he => hnl (he ▸ hsub c hc)
    have hlnl2 : '\n' ∉ line := fun hc => hlnl '\n' hc rfl
    have hlt : ∀ c ∈ line, c ≠ '<' := fun c hc => (hlchars c hc).2.1
    obtain ⟨t, hdect, hts⟩ := trimEndC_decomp s.data
    have hlurl1 : occursC "http://".data line = false := by
      by_contra hbu
      rw [Bool.not_eq_false] at hbu
      have h2 := occursC_append_left _ _ t hbu
      rw [hlinedef, ← hdect] at h2
      rw [h2] at hurl1
      cases hurl1
    have hlurl2 : occursC "https://".data line = false := by
      by_contra hbu
      rw [Bool.not_eq_false] at hbu
      have h2 := occursC_append_left _ _ t hbu
      rw [hlinedef, ← hdect] at h2
      rw [h2] at hurl2
      cases hurl2
    obtain ⟨c0, line2, hdec2⟩ : ∃ c0 line2, line = c0 :: line2 := by
      cases hl0 : line with
      | nil => exact absurd (by rw [hl0]; rfl) hb
      | cons c0 line2 => exact ⟨c0, line2, rfl⟩
    have hc0 : c0 ≠ '\n' := hlnl c0 (hdec2 ▸ List.mem_cons_self _ _)
    have hidem : trimEndC line = line := by rw [hlinedef]; exact trimEndC_idem s.data
    have hV : ∀ c ∈ '\n' :: (line ++ "\n".data), c ≠ '<' := by
      intro c hc
      rcases List.mem_cons.mp hc with rfl | hc2
      · decide
      · rcases List.mem_append.mp hc2 with hc3 | hc3
        · exact hlt c hc3
        · rcases List.mem_singleton.mp hc3 with rfl
          decide
    have hAmp : '&' ∉ '\n' :: (line ++ "\n".data) := by
      intro hc
      rcases List.mem_cons.mp hc with he | hc2
      · cases he
      · rcases List.mem_append.mp hc2 with hc3 | hc3
        · exact (hlchars '&' hc3).1 rfl
        · rcases List.mem_singleton.mp hc3 with he2
          cases he2
    have hlen7 : ('<' :: 'p' :: '>' :: (line ++ "</p>".data)).length = line.length + 7 := by
      simp [List.length_append]
    have hlen4 : ('<' :: 'p' :: '>' :: (line ++ "\n".data)).length = line.length + 4 := by
      simp [List.length_append]
    have hlen2 : ('\n' :: (line ++ "\n".data)).length = line.length + 2 := by
      simp [List.length_append]
    show String.mk (htmlToPlainTextC (toRichHtmlC s.data)) = _
    rw [toRichHtmlC_para s.data hnl hb hh3 hh2 hh1 hli, ← hlinedef]
    rw [escC_id line (fun c hc =>
      ⟨(hlchars c hc).1, (hlchars c hc).2.1, (hlchars c hc).2.2.1⟩)]
    rw [fmtInlineC_id line (fun c hc => (hlchars c hc).2.2.2) hlurl1 hlurl2]
    rw [show "<p>".data ++ line ++ "</p>".data =
      '<' :: 'p' :: '>' :: (line ++ "</p>".data) from by simp]
    unfold htmlToPlainTextC
    rw [if_neg (by simp)]
    simp only []
    simp only [hlen7]
    rw [stage1_para line hlt]
    simp only [hlen7]
    rw [stage2_para line hlt]
    simp only [hlen4]
    rw [stage3_para line hlt]
    rw [scanWith_no_trigger '<' angleMatch _ hV]
    rw [decodeEntitiesC_id _ hAmp]
    rw [trimLinesC_wrap line hlnl2 hidem]
    simp only [hlen2]
    rw [stage7_para line c0 line2 hdec2 hc0 hlnl]
    rw [trimC_cons_ws _ _ (by decide)]
    rw [trimC_append_ws_list line "\n".data (by decide)]
    rw [hlinedef, trimC_trimEndC]

/-- C10 counterexample: the input `"#\tx"` satisfies the claim's
hypotheses — single line; no `&`, `<`, `>` or `*`; no URL; and it does not
begin with a heading marker or list marker followed by a space — yet the
converter's `\s+` also accepts a tab after `#`, so the line is rendered as
`<h1>x</h1>` and the round trip yields `"x"`, not the trimmed input. -/
theorem roundtrip_counterexample :
    ('\n' ∉ "#\tx".data ∧
     (∀ c ∈ "#\tx".data, c ≠ '&' ∧ c ≠ '<' ∧ c ≠ '>' ∧ c ≠ '*') ∧
     occursC "http://".data "#\tx".data = false ∧
     occursC "https://".data "#\tx".data = false ∧
     "# ".data.isPrefixOf (trimEndC "#\tx".data) = false ∧
     "## ".data.isPrefixOf (trimEndC "#\tx".data) = false ∧
     "### ".data.isPrefixOf (trimEndC "#\tx".data) = false ∧
     "- ".data.isPrefixOf (trimEndC "#\tx".data) = false ∧
     "* ".data.isPrefixOf (trimEndC "#\tx".data) = false) ∧
    htmlToPlainText (toRichHtml "#\tx") = "x" ∧
    String.mk (trimC "#\tx".data) = "#\tx" ∧
    ("x" : String) ≠ "#\tx" := by
  exact ⟨by decide, by decide, rfl, by decide⟩

theorem plaintext_richhtml_roundtrip_witness :
    htmlToPlainText (toRichHtml "  hello world ") = ⟨trimC "  hello world ".data⟩ ∧
    String.mk (trimC "  hello world ".data) = "hello world" :=
  ⟨plaintext_richhtml_roundtrip "  hello world " (by decide) (by decide) (by decide)
     (by decide) (by decide) (by decide) (by decide) (by decide), by decide⟩
